import Mathlib

/-!
Verification of the post-VAD segment-splitting logic of the
`silero_vs_pyannote` package (files `utils.py`, `pyannote_audio_split.py`,
`silero_audio_split.py`).

The Python code works with floats; we embed the arithmetic over `ℚ`
(exact arithmetic).  Audio slices `original_audio_segment[start_ms:end_ms]`
are modelled by the pair of their millisecond boundaries (`Seg`), the Python
dict `split_audio` by an insertion-ordered association list (`SegDict`),
and Python strings by `List Char`.
-/

/-- `sec_to_millis` from `utils.py`: seconds to milliseconds. -/
def sec_to_millis (seconds : ℚ) : ℚ := seconds * 1000

/-- `frame_to_sec` from `utils.py`: frame index to seconds. -/
def frame_to_sec (frame sampling_rate : ℚ) : ℚ := frame / sampling_rate

/-- `sec_to_frame` from `utils.py`: seconds to frame index. -/
def sec_to_frame (sec sr : ℚ) : ℚ := sec * sr

/-- Python `int()` applied to a float: truncation toward zero. -/
def pyInt (q : ℚ) : ℤ := if q < 0 then -⌊-q⌋ else ⌊q⌋

/-- One digit as a character, `0 ↦ '0'`, ..., `9 ↦ '9'`. -/
def digitChar (d : ℕ) : Char := Char.ofNat (48 + d)

/-- Python `str(n)` for a natural number: decimal digits, most significant
first. -/
def natStr (n : ℕ) : List Char :=
  if n = 0 then ['0'] else ((Nat.digits 10 n).reverse).map digitChar

/-- Python `f"{c:04}"`: decimal rendering zero-padded to width at least 4. -/
def padCounter (c : ℕ) : List Char :=
  List.replicate (4 - (natStr c).length) '0' ++ natStr c

/-- Python `str(i)` for an integer (sign included). -/
def intStr (i : ℤ) : List Char :=
  if i < 0 then '-' :: natStr i.natAbs else natStr i.toNat

/-- The Segment Key
`f"{full_audio_id}_{counter:04}_{int(start_ms)}_to_{int(end_ms)}"`
built at each emission site. -/
def mkSegmentKey (full_audio_id : List Char) (counter : ℕ) (s e : ℤ) :
    List Char :=
  full_audio_id ++ '_' ::
    (padCounter counter ++ '_' ::
      (intStr s ++ '_' :: 't' :: 'o' :: '_' :: intStr e))

/-- An emitted audio slice `original_audio_segment[start_ms:end_ms]`,
identified by its millisecond boundaries. -/
structure Seg where
  startMs : ℚ
  endMs : ℚ
deriving DecidableEq

/-- Duration of an emitted slice, in seconds. -/
def segDuration (s : Seg) : ℚ := (s.endMs - s.startMs) / 1000

/-- The Output Collection `split_audio`: a Python dict, modelled as an
insertion-ordered association list. -/
abbrev SegDict := List (List Char × Seg)

/-- Python `d[k] = v`: overwrite in place when the key is present,
append otherwise. -/
def dictIns (d : SegDict) (k : List Char) (v : Seg) : SegDict :=
  if k ∈ d.map Prod.fst then
    d.map (fun p => if p.1 = k then (p.1, v) else p)
  else d ++ [(k, v)]

/-- The `while chop_length > upper_limit: chop_length = chop_length / 2`
loop of `chop_long_segment_duration`.  Termination needs `0 < upper_limit`
(as the Python loop does for a positive argument). -/
def chop_loop (upper : ℚ) (hu : 0 < upper) (chop : ℚ) : ℚ :=
  if h : upper < chop then chop_loop upper hu (chop / 2) else chop
termination_by (⌈chop / upper⌉).toNat
decreasing_by
  have hx : ((1 : ℤ) : ℚ) < chop / upper := by
    push_cast
    exact (one_lt_div hu).mpr h
  have h2 : (1 : ℤ) < ⌈chop / upper⌉ := Int.lt_ceil.mpr hx
  have h2q : (2 : ℚ) ≤ (⌈chop / upper⌉ : ℚ) := by exact_mod_cast h2
  have hle : chop / upper ≤ (⌈chop / upper⌉ : ℚ) := Int.le_ceil _
  have hhalf : chop / 2 / upper = chop / upper / 2 := by ring
  have hstep : ⌈chop / 2 / upper⌉ ≤ ⌈chop / upper⌉ - 1 := by
    rw [hhalf]
    apply Int.ceil_le.mpr
    push_cast
    linarith
  omega

/-- Number of iterations of the halving loop (instrumentation of
`chop_loop`). -/
def chop_steps (upper : ℚ) (hu : 0 < upper) (chop : ℚ) : ℕ :=
  if h : upper < chop then chop_steps upper hu (chop / 2) + 1 else 0
termination_by (⌈chop / upper⌉).toNat
decreasing_by
  have hx : ((1 : ℤ) : ℚ) < chop / upper := by
    push_cast
    exact (one_lt_div hu).mpr h
  have h2 : (1 : ℤ) < ⌈chop / upper⌉ := Int.lt_ceil.mpr hx
  have h2q : (2 : ℚ) ≤ (⌈chop / upper⌉ : ℚ) := by exact_mod_cast h2
  have hle : chop / upper ≤ (⌈chop / upper⌉ : ℚ) := Int.le_ceil _
  have hhalf : chop / 2 / upper = chop / upper / 2 := by ring
  have hstep : ⌈chop / 2 / upper⌉ ≤ ⌈chop / upper⌉ - 1 := by
    rw [hhalf]
    apply Int.ceil_le.mpr
    push_cast
    linarith
  omega

/-- One iteration of the `for chop_index in range(...)` loop of
`chop_long_segment_duration`: emit the chop
`[base + chop_length*i, base + chop_length*(i+1)]` (in seconds, with
`base = vad_span.start + frame_to_sec(split_start, sampling_rate)`) under a
fresh Segment Key and advance the counter. -/
def chopStep (chop_length base : ℚ) (full_audio_id : List Char)
    (st : SegDict × ℕ) (chop_index : ℕ) : SegDict × ℕ :=
  let start_ms := sec_to_millis (base + chop_length * chop_index)
  let end_ms := sec_to_millis (base + chop_length * (chop_index + 1))
  let segment_key :=
    mkSegmentKey full_audio_id st.2 (pyInt start_ms) (pyInt end_ms)
  (dictIns st.1 segment_key ⟨start_ms, end_ms⟩, st.2 + 1)

/-- `chop_long_segment_duration` from `utils.py`: halve the duration until
it fits under `upper_limit`, then emit `int(duration / chop_length)`
consecutive chops of width `chop_length`, each under a fresh Segment Key,
incrementing the shared counter. -/
def chop_long_segment_duration (segment_split_duration upper_limit : ℚ)
    (hu : 0 < upper_limit) (vad_span_start split_start sampling_rate : ℚ)
    (full_audio_id : List Char) (split_audio : SegDict) (counter : ℕ) :
    SegDict × ℕ :=
  let chop_length := chop_loop upper_limit hu (segment_split_duration / 2)
  (List.range (pyInt (segment_split_duration / chop_length)).toNat).foldl
    (chopStep chop_length
      (vad_span_start + frame_to_sec split_start sampling_rate)
      full_audio_id)
    (split_audio, counter)

/-- `process_non_mute_segments` from `utils.py`: classify each non-mute
sub-span (accept / drop / chop) and thread the dict and counter through. -/
def process_non_mute_segments (non_mute_segment_splits : List (ℚ × ℚ))
    (vad_span_start sampling_rate lower_limit upper_limit : ℚ)
    (hu : 0 < upper_limit) (full_audio_id : List Char) (counter : ℕ)
    (split_audio : SegDict) : SegDict × ℕ :=
  match non_mute_segment_splits with
  | [] => (split_audio, counter)
  | (split_start, split_end) :: rest =>
    let start_ms := sec_to_millis
      (vad_span_start + frame_to_sec split_start sampling_rate)
    let end_ms := sec_to_millis
      (vad_span_start + frame_to_sec split_end sampling_rate)
    let segment_split_duration :=
      (vad_span_start + frame_to_sec split_end sampling_rate) -
        (vad_span_start + frame_to_sec split_start sampling_rate)
    if lower_limit ≤ segment_split_duration ∧
        segment_split_duration ≤ upper_limit then
      process_non_mute_segments rest vad_span_start sampling_rate
        lower_limit upper_limit hu full_audio_id (counter + 1)
        (dictIns split_audio
          (mkSegmentKey full_audio_id counter (pyInt start_ms) (pyInt end_ms))
          ⟨start_ms, end_ms⟩)
    else if upper_limit < segment_split_duration then
      let r := chop_long_segment_duration segment_split_duration upper_limit
        hu vad_span_start split_start sampling_rate full_audio_id
        split_audio counter
      process_non_mute_segments rest vad_span_start sampling_rate
        lower_limit upper_limit hu full_audio_id r.2 r.1
    else
      process_non_mute_segments rest vad_span_start sampling_rate
        lower_limit upper_limit hu full_audio_id counter split_audio

/-- A VAD speech span, in seconds (the `vad_span` objects of both
backends; `stop` stands for the Python attribute `end`). -/
structure VadSpan where
  start : ℚ
  stop : ℚ

/-- The per-span loop of `get_split_audio` (`pyannote_audio_split.py`).
`nonMute` is the oracle for `librosa.effects.split`, returning the
non-silent frame ranges of an over-long span. -/
def get_split_audio_loop (spans : List VadSpan)
    (nonMute : VadSpan → List (ℚ × ℚ)) (sampling_rate : ℚ)
    (lower_limit upper_limit : ℚ) (hu : 0 < upper_limit)
    (full_audio_id : List Char) (split_audio : SegDict) (counter : ℕ) :
    SegDict × ℕ :=
  match spans with
  | [] => (split_audio, counter)
  | vad_span :: rest =>
    let start_ms := sec_to_millis vad_span.start
    let end_ms := sec_to_millis vad_span.stop
    let vad_span_length := vad_span.stop - vad_span.start
    if lower_limit ≤ vad_span_length ∧ vad_span_length ≤ upper_limit then
      get_split_audio_loop rest nonMute sampling_rate lower_limit upper_limit
        hu full_audio_id
        (dictIns split_audio
          (mkSegmentKey full_audio_id counter (pyInt start_ms) (pyInt end_ms))
          ⟨start_ms, end_ms⟩)
        (counter + 1)
    else if upper_limit < vad_span_length then
      let r := process_non_mute_segments (nonMute vad_span) vad_span.start
        sampling_rate lower_limit upper_limit hu full_audio_id counter
        split_audio
      get_split_audio_loop rest nonMute sampling_rate lower_limit upper_limit
        hu full_audio_id r.1 r.2
    else
      get_split_audio_loop rest nonMute sampling_rate lower_limit upper_limit
        hu full_audio_id split_audio counter

/-- `get_split_audio` (`pyannote_audio_split.py`): run the per-span loop
over the VAD timeline, starting from an empty dict and counter 1. -/
def get_split_audio (spans : List VadSpan) (nonMute : VadSpan → List (ℚ × ℚ))
    (sampling_rate : ℚ) (full_audio_id : List Char)
    (lower_limit upper_limit : ℚ) (hu : 0 < upper_limit) : SegDict :=
  (get_split_audio_loop spans nonMute sampling_rate lower_limit upper_limit
    hu full_audio_id [] 1).1

/-- The per-timestamp loop of `get_split_audio_using_silero`
(`silero_audio_split.py`).  Timestamps are sample-frame pairs at 16 kHz. -/
def get_split_audio_using_silero_loop (speech_timestamps : List (ℕ × ℕ))
    (nonMute : ℕ × ℕ → List (ℚ × ℚ)) (lower_limit upper_limit : ℚ)
    (hu : 0 < upper_limit) (full_audio_id : List Char)
    (split_audio : SegDict) (counter : ℕ) : SegDict × ℕ :=
  match speech_timestamps with
  | [] => (split_audio, counter)
  | (start_frame, end_frame) :: rest =>
    let vstart : ℚ := (start_frame : ℚ) / 16000
    let vstop : ℚ := (end_frame : ℚ) / 16000
    let segment_duration : ℚ :=
      ((end_frame : ℚ) - (start_frame : ℚ)) / 16000
    if lower_limit ≤ segment_duration ∧ segment_duration ≤ upper_limit then
      let start_ms := sec_to_millis vstart
      let end_ms := sec_to_millis vstop
      get_split_audio_using_silero_loop rest nonMute lower_limit upper_limit
        hu full_audio_id
        (dictIns split_audio
          (mkSegmentKey full_audio_id counter (pyInt start_ms) (pyInt end_ms))
          ⟨start_ms, end_ms⟩)
        (counter + 1)
    else if upper_limit < segment_duration then
      let r := process_non_mute_segments (nonMute (start_frame, end_frame))
        vstart 16000 lower_limit upper_limit hu full_audio_id counter
        split_audio
      get_split_audio_using_silero_loop rest nonMute lower_limit upper_limit
        hu full_audio_id r.1 r.2
    else
      get_split_audio_using_silero_loop rest nonMute lower_limit upper_limit
        hu full_audio_id split_audio counter

/-- `get_split_audio_using_silero` (`silero_audio_split.py`). -/
def get_split_audio_using_silero (speech_timestamps : List (ℕ × ℕ))
    (nonMute : ℕ × ℕ → List (ℚ × ℚ)) (full_audio_id : List Char)
    (lower_limit upper_limit : ℚ) (hu : 0 < upper_limit) : SegDict :=
  (get_split_audio_using_silero_loop speech_timestamps nonMute lower_limit
    upper_limit hu full_audio_id [] 1).1

/-- No key of `d` is a Segment Key of `full_audio_id` with a counter value
`≥ counter`.  This is the freshness invariant the program maintains: the
shared counter is always strictly above every counter already used. -/
def FreshDict (full_audio_id : List Char) (d : SegDict) (counter : ℕ) :
    Prop :=
  ∀ p ∈ d, ∀ c : ℕ, counter ≤ c → ∀ s e : ℤ, p.1 ≠ mkSegmentKey
    full_audio_id c s e

/-- The `i`-th chop emitted by the chopper loop, with counter value
`counter + i`. -/
def chopEntry (chop_length base : ℚ) (full_audio_id : List Char)
    (counter i : ℕ) : List Char × Seg :=
  (mkSegmentKey full_audio_id (counter + i)
      (pyInt (sec_to_millis (base + chop_length * i)))
      (pyInt (sec_to_millis (base + chop_length * (i + 1)))),
    ⟨sec_to_millis (base + chop_length * i),
      sec_to_millis (base + chop_length * (i + 1))⟩)

/-- The list of the first `N` chops. -/
def chopMap (chop_length base : ℚ) (full_audio_id : List Char)
    (counter N : ℕ) : SegDict :=
  (List.range N).map (chopEntry chop_length base full_audio_id counter)

/-- The chops emitted by one call of `chop_long_segment_duration`. -/
def chopEntries (segment_split_duration upper_limit : ℚ)
    (hu : 0 < upper_limit) (vad_span_start split_start sampling_rate : ℚ)
    (full_audio_id : List Char) (counter : ℕ) : SegDict :=
  chopMap (chop_loop upper_limit hu (segment_split_duration / 2))
    (vad_span_start + frame_to_sec split_start sampling_rate) full_audio_id
    counter
    (pyInt (segment_split_duration /
      chop_loop upper_limit hu (segment_split_duration / 2))).toNat

/-- The segments emitted by one call of `process_non_mute_segments`,
in emission order, starting at counter value `counter`. -/
def pnmsEntries (non_mute_segment_splits : List (ℚ × ℚ))
    (vad_span_start sampling_rate lower_limit upper_limit : ℚ)
    (hu : 0 < upper_limit) (full_audio_id : List Char) (counter : ℕ) :
    SegDict :=
  match non_mute_segment_splits with
  | [] => []
  | (split_start, split_end) :: rest =>
    let start_ms := sec_to_millis
      (vad_span_start + frame_to_sec split_start sampling_rate)
    let end_ms := sec_to_millis
      (vad_span_start + frame_to_sec split_end sampling_rate)
    let segment_split_duration :=
      (vad_span_start + frame_to_sec split_end sampling_rate) -
        (vad_span_start + frame_to_sec split_start sampling_rate)
    if lower_limit ≤ segment_split_duration ∧
        segment_split_duration ≤ upper_limit then
      (mkSegmentKey full_audio_id counter (pyInt start_ms) (pyInt end_ms),
          ⟨start_ms, end_ms⟩) ::
        pnmsEntries rest vad_span_start sampling_rate lower_limit
          upper_limit hu full_audio_id (counter + 1)
    else if upper_limit < segment_split_duration then
      chopEntries segment_split_duration upper_limit hu vad_span_start
          split_start sampling_rate full_audio_id counter ++
        pnmsEntries rest vad_span_start sampling_rate lower_limit
          upper_limit hu full_audio_id
          (counter + (chopEntries segment_split_duration upper_limit hu
            vad_span_start split_start sampling_rate full_audio_id
            counter).length)
    else
      pnmsEntries rest vad_span_start sampling_rate lower_limit upper_limit
        hu full_audio_id counter

/-- The segments emitted by the pyannote per-span loop starting at
counter value `counter`. -/
def gsaEntries (spans : List VadSpan) (nonMute : VadSpan → List (ℚ × ℚ))
    (sampling_rate lower_limit upper_limit : ℚ) (hu : 0 < upper_limit)
    (full_audio_id : List Char) (counter : ℕ) : SegDict :=
  match spans with
  | [] => []
  | vad_span :: rest =>
    let vad_span_length := vad_span.stop - vad_span.start
    if lower_limit ≤ vad_span_length ∧ vad_span_length ≤ upper_limit then
      (mkSegmentKey full_audio_id counter
          (pyInt (sec_to_millis vad_span.start))
          (pyInt (sec_to_millis vad_span.stop)),
          ⟨sec_to_millis vad_span.start, sec_to_millis vad_span.stop⟩) ::
        gsaEntries rest nonMute sampling_rate lower_limit upper_limit hu
          full_audio_id (counter + 1)
    else if upper_limit < vad_span_length then
      pnmsEntries (nonMute vad_span) vad_span.start sampling_rate
          lower_limit upper_limit hu full_audio_id counter ++
        gsaEntries rest nonMute sampling_rate lower_limit upper_limit hu
          full_audio_id
          (counter + (pnmsEntries (nonMute vad_span) vad_span.start
            sampling_rate lower_limit upper_limit hu full_audio_id
            counter).length)
    else
      gsaEntries rest nonMute sampling_rate lower_limit upper_limit hu
        full_audio_id counter

/-- The segments emitted by the Silero per-timestamp loop starting at
counter value `counter`. -/
def sileroEntries (speech_timestamps : List (ℕ × ℕ))
    (nonMute : ℕ × ℕ → List (ℚ × ℚ)) (lower_limit upper_limit : ℚ)
    (hu : 0 < upper_limit) (full_audio_id : List Char) (counter : ℕ) :
    SegDict :=
  match speech_timestamps with
  | [] => []
  | (start_frame, end_frame) :: rest =>
    let vstart : ℚ := (start_frame : ℚ) / 16000
    let vstop : ℚ := (end_frame : ℚ) / 16000
    let segment_duration : ℚ :=
      ((end_frame : ℚ) - (start_frame : ℚ)) / 16000
    if lower_limit ≤ segment_duration ∧ segment_duration ≤ upper_limit then
      (mkSegmentKey full_audio_id counter (pyInt (sec_to_millis vstart))
          (pyInt (sec_to_millis vstop)),
          ⟨sec_to_millis vstart, sec_to_millis vstop⟩) ::
        sileroEntries rest nonMute lower_limit upper_limit hu full_audio_id
          (counter + 1)
    else if upper_limit < segment_duration then
      pnmsEntries (nonMute (start_frame, end_frame)) vstart 16000
          lower_limit upper_limit hu full_audio_id counter ++
        sileroEntries rest nonMute lower_limit upper_limit hu full_audio_id
          (counter + (pnmsEntries (nonMute (start_frame, end_frame)) vstart
            16000 lower_limit upper_limit hu full_audio_id counter).length)
    else
      sileroEntries rest nonMute lower_limit upper_limit hu full_audio_id
        counter

/-- The duration shape of every emitted segment: never above
`upper_limit`, and below `lower_limit` only when it is a chop, which is
always longer than `upper_limit / 2`. -/
def SegOk (lower_limit upper_limit : ℚ) (p : List Char × Seg) : Prop :=
  segDuration p.2 ≤ upper_limit ∧
    (lower_limit ≤ segDuration p.2 ∨ upper_limit / 2 < segDuration p.2)

/-- The entries of a dict carry consecutive counter values starting at
`c`, each key rendering its own segment's millisecond boundaries. -/
def IndexedFrom (full_audio_id : List Char) : ℕ → SegDict → Prop
  | _, [] => True
  | c, p :: rest =>
    (∃ seg : Seg, p = (mkSegmentKey full_audio_id c (pyInt seg.startMs)
      (pyInt seg.endMs), seg)) ∧ IndexedFrom full_audio_id (c + 1) rest

/-- Total duration (in seconds) of the segments of a dict. -/
def sumDur (l : SegDict) : ℚ := (l.map (fun p => segDuration p.2)).sum

/-- The shape `librosa.effects.split` guarantees for its return value:
ordered, non-overlapping frame ranges inside `[lo, hi]`. -/
def SplitsChain (lo hi : ℚ) : List (ℚ × ℚ) → Prop
  | [] => True
  | (a, b) :: rest => lo ≤ a ∧ a ≤ b ∧ b ≤ hi ∧ SplitsChain b hi rest

lemma dictIns_of_not_mem {d : SegDict} {k : List Char} {v : Seg}
    (h : k ∉ d.map Prod.fst) : dictIns d k v = d ++ [(k, v)] := by
  simp [dictIns, h]

lemma natStr_ne_nil (n : ℕ) : natStr n ≠ [] := by
  unfold natStr
  split
  · simp
  · next h =>
    simp only [ne_eq, List.map_eq_nil, List.reverse_eq_nil_iff]
    exact Nat.digits_ne_nil_iff_ne_zero.mpr h

lemma digitChar_lt_underscore {d : ℕ} (hd : d < 10) : digitChar d ≠ '_' := by
  interval_cases d <;> decide

lemma digitChar_inj {a b : ℕ} (ha : a < 10) (hb : b < 10)
    (h : digitChar a = digitChar b) : a = b := by
  interval_cases a <;> interval_cases b <;> first | rfl | exact absurd h (by decide)

lemma natStr_mem_ne_underscore {n : ℕ} {ch : Char} (h : ch ∈ natStr n) :
    ch ≠ '_' := by
  unfold natStr at h
  split at h
  · rcases List.mem_singleton.mp h with rfl
    decide
  · rcases List.mem_map.mp h with ⟨d, hd, rfl⟩
    exact digitChar_lt_underscore
      (Nat.digits_lt_base (by norm_num) (List.mem_reverse.mp hd))

lemma padCounter_mem_ne_underscore {c : ℕ} {ch : Char}
    (h : ch ∈ padCounter c) : ch ≠ '_' := by
  rcases List.mem_append.mp h with h | h
  · rcases List.eq_of_mem_replicate h with rfl
    decide
  · exact natStr_mem_ne_underscore h

/-- Cancellation at the first separator: if two lists agree and both prefix
parts avoid `'_'`, the prefixes and suffixes agree. -/
lemma underscore_split_cancel :
    ∀ (l1 l2 r1 r2 : List Char), (∀ c ∈ l1, c ≠ '_') →
      (∀ c ∈ l2, c ≠ '_') →
      l1 ++ '_' :: r1 = l2 ++ '_' :: r2 → l1 = l2 ∧ r1 = r2 := by
  intro l1
  induction l1 with
  | nil =>
    intro l2 r1 r2 _ h2 heq
    cases l2 with
    | nil => simpa using heq
    | cons b t =>
      exfalso
      apply h2 b (List.mem_cons_self b t)
      have := (List.cons.injEq _ _ _ _).mp (by simpa using heq)
      exact this.1.symm
  | cons a t ih =>
    intro l2 r1 r2 h1 h2 heq
    cases l2 with
    | nil =>
      exfalso
      apply h1 a (List.mem_cons_self a t)
      have := (List.cons.injEq _ _ _ _).mp (by simpa using heq)
      exact this.1
    | cons b t2 =>
      simp only [List.cons_append, List.cons.injEq] at heq
      obtain ⟨rfl, heq⟩ := heq
      obtain ⟨ht, hr⟩ := ih t2 r1 r2 (fun c hc => h1 c (List.mem_cons_of_mem _ hc))
        (fun c hc => h2 c (List.mem_cons_of_mem _ hc)) heq
      exact ⟨by rw [ht], hr⟩

lemma natStr_head_ne_zero {n : ℕ} (hn : n ≠ 0) :
    ∃ d t, natStr n = digitChar d :: t ∧ d ≠ 0 ∧ d < 10 := by
  unfold natStr
  rw [if_neg hn]
  have hne : Nat.digits 10 n ≠ [] := Nat.digits_ne_nil_iff_ne_zero.mpr hn
  rcases hrev : (Nat.digits 10 n).reverse with _ | ⟨d, t⟩
  · exact absurd (by simpa using hrev) hne
  · refine ⟨d, t.map digitChar, by simp, ?_, ?_⟩
    · have hdl : d = (Nat.digits 10 n).getLast hne := by
        rw [← List.head_reverse]
        · simp [hrev]
        · simpa using hne
      rw [hdl]
      exact Nat.getLast_digit_ne_zero 10 hn
    · have : d ∈ Nat.digits 10 n := by
        rw [← List.mem_reverse, hrev]
        exact List.mem_cons_self d t
      exact Nat.digits_lt_base (by norm_num) this

/-- Stripping runs of leading `'0'` characters in front of strings that do
not start with `'0'`. -/
lemma replicate_zero_cancel :
    ∀ (z1 z2 : ℕ) (l1 l2 : List Char),
      (∀ t, l1 ≠ '0' :: t) → (∀ t, l2 ≠ '0' :: t) →
      List.replicate z1 '0' ++ l1 = List.replicate z2 '0' ++ l2 →
      l1 = l2 := by
  intro z1
  induction z1 with
  | zero =>
    intro z2 l1 l2 h1 h2 heq
    cases z2 with
    | zero => simpa using heq
    | succ k =>
      simp only [List.replicate_succ, List.nil_append, List.cons_append] at heq
      exact absurd heq (h1 _)
  | succ k ih =>
    intro z2 l1 l2 h1 h2 heq
    cases z2 with
    | zero =>
      simp only [List.replicate_succ, List.nil_append, List.cons_append] at heq
      exact absurd heq.symm (h2 _)
    | succ m =>
      simp only [List.replicate_succ, List.cons_append, List.cons.injEq] at heq
      exact ih m l1 l2 h1 h2 heq.2

lemma natStr_digit_chars (n : ℕ) :
    ∀ c ∈ natStr n, ∃ d < 10, c = digitChar d := by
  intro c hc
  unfold natStr at hc
  split at hc
  · rcases List.mem_singleton.mp hc with rfl
    exact ⟨0, by norm_num, rfl⟩
  · rcases List.mem_map.mp hc with ⟨d, hd, rfl⟩
    exact ⟨d, Nat.digits_lt_base (by norm_num) (List.mem_reverse.mp hd), rfl⟩

lemma map_digitChar_inj :
    ∀ {l1 l2 : List ℕ}, (∀ d ∈ l1, d < 10) → (∀ d ∈ l2, d < 10) →
      l1.map digitChar = l2.map digitChar → l1 = l2 := by
  intro l1
  induction l1 with
  | nil =>
    intro l2 _ _ h
    cases l2 with
    | nil => rfl
    | cons b t => simp at h
  | cons a t ih =>
    intro l2 h1 h2 h
    cases l2 with
    | nil => simp at h
    | cons b t2 =>
      simp only [List.map_cons, List.cons.injEq] at h
      have hab : a = b := digitChar_inj (h1 a (List.mem_cons_self a t))
        (h2 b (List.mem_cons_self b t2)) h.1
      have ht : t = t2 := ih (fun d hd => h1 d (List.mem_cons_of_mem _ hd))
        (fun d hd => h2 d (List.mem_cons_of_mem _ hd)) h.2
      rw [hab, ht]

lemma natStr_inj {a b : ℕ} (h : natStr a = natStr b) : a = b := by
  by_cases ha : a = 0
  · by_cases hb : b = 0
    · rw [ha, hb]
    · exfalso
      rcases natStr_head_ne_zero hb with ⟨d, t, hb2, hd0, hdlt⟩
      rw [ha, hb2] at h
      have hch : digitChar 0 = digitChar d := by
        have h0 : digitChar 0 = '0' := by decide
        rw [h0]
        have := (List.cons.injEq _ _ _ _).mp (by simpa [natStr] using h)
        exact this.1
      exact hd0 (digitChar_inj (by norm_num) hdlt hch).symm
  · by_cases hb : b = 0
    · exfalso
      rcases natStr_head_ne_zero ha with ⟨d, t, ha2, hd0, hdlt⟩
      rw [hb, ha2] at h
      have hch : digitChar d = digitChar 0 := by
        have h0 : digitChar 0 = '0' := by decide
        rw [h0]
        have := (List.cons.injEq _ _ _ _).mp (by simpa [natStr] using h)
        exact this.1
      exact hd0 (digitChar_inj hdlt (by norm_num) hch)
    · have ha' : Nat.digits 10 a ≠ [] := Nat.digits_ne_nil_iff_ne_zero.mpr ha
      have hb' : Nat.digits 10 b ≠ [] := Nat.digits_ne_nil_iff_ne_zero.mpr hb
      unfold natStr at h
      rw [if_neg ha, if_neg hb] at h
      have hmap : (Nat.digits 10 a).reverse = (Nat.digits 10 b).reverse :=
        map_digitChar_inj
          (fun d hd => Nat.digits_lt_base (by norm_num) (List.mem_reverse.mp hd))
          (fun d hd => Nat.digits_lt_base (by norm_num) (List.mem_reverse.mp hd))
          h
      have : Nat.digits 10 a = Nat.digits 10 b := by
        simpa using congrArg List.reverse hmap
      exact Nat.digits_inj_iff.mp this

lemma natStr_not_zero_headed {c : ℕ} (hc : c ≠ 0) :
    ∀ t, natStr c ≠ '0' :: t := by
  intro t ht
  rcases natStr_head_ne_zero hc with ⟨d, t0, hc2, hd0, hdlt⟩
  rw [hc2] at ht
  have hch : digitChar d = digitChar 0 := by
    have h0 : digitChar 0 = '0' := by decide
    rw [h0]
    exact ((List.cons.injEq _ _ _ _).mp ht).1
  exact hd0 (digitChar_inj hdlt (by norm_num) hch)

lemma padCounter_inj {c1 c2 : ℕ} (h1 : c1 ≠ 0) (h2 : c2 ≠ 0)
    (h : padCounter c1 = padCounter c2) : c1 = c2 := by
  unfold padCounter at h
  exact natStr_inj (replicate_zero_cancel _ _ _ _
    (natStr_not_zero_headed h1) (natStr_not_zero_headed h2) h)

/-- Two Segment Keys of the same run (same audio id) built from different
nonzero counter values are different strings, whatever their millisecond
fields are. -/
lemma mkSegmentKey_counter_inj {full_audio_id : List Char} {c1 c2 : ℕ}
    {s1 e1 s2 e2 : ℤ} (h1 : c1 ≠ 0) (h2 : c2 ≠ 0)
    (h : mkSegmentKey full_audio_id c1 s1 e1 =
      mkSegmentKey full_audio_id c2 s2 e2) : c1 = c2 := by
  unfold mkSegmentKey at h
  have h' := List.append_cancel_left h
  have h'' : padCounter c1 ++ '_' :: (intStr s1 ++ '_' :: 't' :: 'o' :: '_' :: intStr e1) =
      padCounter c2 ++ '_' :: (intStr s2 ++ '_' :: 't' :: 'o' :: '_' :: intStr e2) :=
    ((List.cons.injEq _ _ _ _).mp h').2
  have hpc := (underscore_split_cancel _ _ _ _
    (fun c hc => padCounter_mem_ne_underscore hc)
    (fun c hc => padCounter_mem_ne_underscore hc) h'').1
  exact padCounter_inj h1 h2 hpc

/-- The halving loop always stops at a value `≤ upper_limit`. -/
lemma chop_loop_le_upper (upper : ℚ) (hu : 0 < upper) (chop : ℚ) :
    chop_loop upper hu chop ≤ upper := by
  induction chop using chop_loop.induct upper hu with
  | case1 x hx ih =>
    rw [chop_loop]
    simpa only [dif_pos hx] using ih
  | case2 x hx =>
    rw [chop_loop]
    simp only [dif_neg hx]
    linarith

/-- The halving loop never goes to or below `upper_limit / 2`: each halved
value was `> upper_limit` just before. -/
lemma chop_loop_gt_half (upper : ℚ) (hu : 0 < upper) (chop : ℚ) :
    upper / 2 < chop → upper / 2 < chop_loop upper hu chop := by
  induction chop using chop_loop.induct upper hu with
  | case1 x hx ih =>
    intro _
    rw [chop_loop]
    simp only [dif_pos hx]
    exact ih (by linarith)
  | case2 x hx =>
    intro h
    rw [chop_loop]
    simpa only [dif_neg hx] using h

/-- The loop result is the input divided by `2 ^ (number of iterations)`. -/
lemma chop_loop_eq_div_pow (upper : ℚ) (hu : 0 < upper) (chop : ℚ) :
    chop_loop upper hu chop = chop / 2 ^ chop_steps upper hu chop := by
  induction chop using chop_loop.induct upper hu with
  | case1 x hx ih =>
    rw [chop_loop, chop_steps]
    simp only [dif_pos hx]
    rw [ih, pow_succ]
    ring
  | case2 x hx =>
    rw [chop_loop, chop_steps]
    simp only [dif_neg hx, pow_zero, div_one]

/-- The loop runs for the minimal number of halvings: any halving count
that already suffices bounds the iteration count. -/
lemma chop_steps_le (upper : ℚ) (hu : 0 < upper) (chop : ℚ) :
    ∀ n : ℕ, chop / 2 ^ n ≤ upper → chop_steps upper hu chop ≤ n := by
  induction chop using chop_loop.induct upper hu with
  | case1 x hx ih =>
    intro n hn
    rw [chop_steps]
    simp only [dif_pos hx]
    cases n with
    | zero =>
      exfalso
      rw [pow_zero, div_one] at hn
      linarith
    | succ m =>
      have hm : x / 2 / 2 ^ m ≤ upper := by
        have : x / 2 / 2 ^ m = x / 2 ^ (m + 1) := by
          rw [pow_succ]
          ring
        rw [this]
        exact hn
      exact Nat.succ_le_succ (ih m hm)
  | case2 x hx =>
    intro n _
    rw [chop_steps]
    simp only [dif_neg hx]
    exact Nat.zero_le n

lemma chop_loop_pos (upper : ℚ) (hu : 0 < upper) (chop : ℚ)
    (hc : 0 < chop) : 0 < chop_loop upper hu chop := by
  rw [chop_loop_eq_div_pow]
  positivity

lemma freshDict_not_mem {full_audio_id : List Char} {dict : SegDict}
    {counter : ℕ} (hf : FreshDict full_audio_id dict counter) {c : ℕ}
    (hc : counter ≤ c) (s e : ℤ) :
    mkSegmentKey full_audio_id c s e ∉ dict.map Prod.fst := by
  intro hmem
  rcases List.mem_map.mp hmem with ⟨p, hp, hkey⟩
  exact hf p hp c hc s e hkey

lemma freshDict_append {full_audio_id : List Char} {d1 d2 : SegDict}
    {counter : ℕ} (h1 : FreshDict full_audio_id d1 counter)
    (h2 : FreshDict full_audio_id d2 counter) :
    FreshDict full_audio_id (d1 ++ d2) counter := by
  intro p hp
  rcases List.mem_append.mp hp with h | h
  · exact h1 p h
  · exact h2 p h

lemma freshDict_mono {full_audio_id : List Char} {dict : SegDict}
    {c c' : ℕ} (hf : FreshDict full_audio_id dict c) (hcc : c ≤ c') :
    FreshDict full_audio_id dict c' :=
  fun p hp c2 hc2 => hf p hp c2 (le_trans hcc hc2)

lemma chopMap_length (chop_length base : ℚ) (full_audio_id : List Char)
    (counter N : ℕ) :
    (chopMap chop_length base full_audio_id counter N).length = N := by
  simp [chopMap]

lemma chopMap_succ (chop_length base : ℚ) (full_audio_id : List Char)
    (counter N : ℕ) :
    chopMap chop_length base full_audio_id counter (N + 1) =
      chopMap chop_length base full_audio_id counter N ++
        [chopEntry chop_length base full_audio_id counter N] := by
  simp [chopMap, List.range_succ]

lemma chopMap_fresh {chop_length base : ℚ} {full_audio_id : List Char}
    {counter : ℕ} (N : ℕ) (hc : 0 < counter) :
    FreshDict full_audio_id
      (chopMap chop_length base full_audio_id counter N) (counter + N) := by
  intro p hp c2 hc2 s e hkey
  rcases List.mem_map.mp hp with ⟨i, hi, rfl⟩
  have hilt : i < N := List.mem_range.mp hi
  have : counter + i = c2 :=
    mkSegmentKey_counter_inj (by omega) (by omega) hkey
  omega

lemma chop_fold_spec (chop_length base : ℚ) (full_audio_id : List Char)
    (N : ℕ) :
    ∀ (dict : SegDict) (counter : ℕ), 0 < counter →
      FreshDict full_audio_id dict counter →
      (List.range N).foldl (chopStep chop_length base full_audio_id)
          (dict, counter) =
        (dict ++ chopMap chop_length base full_audio_id counter N,
          counter + N) := by
  induction N with
  | zero =>
    intro dict counter _ _
    simp [chopMap]
  | succ n ih =>
    intro dict counter hc hf
    rw [List.range_succ, List.foldl_append, ih dict counter hc hf]
    simp only [List.foldl_cons, List.foldl_nil]
    have hnot : mkSegmentKey full_audio_id (counter + n)
        (pyInt (sec_to_millis (base + chop_length * n)))
        (pyInt (sec_to_millis (base + chop_length * (n + 1)))) ∉
        (dict ++ chopMap chop_length base full_audio_id counter n).map
          Prod.fst := by
      rw [List.map_append]
      intro hmem
      rcases List.mem_append.mp hmem with h | h
      · exact freshDict_not_mem hf (Nat.le_add_right _ _) _ _ h
      · exact freshDict_not_mem (chopMap_fresh n hc) (le_refl _) _ _ h
    show (dictIns (dict ++ chopMap chop_length base full_audio_id counter n)
        (mkSegmentKey full_audio_id (counter + n)
          (pyInt (sec_to_millis (base + chop_length * n)))
          (pyInt (sec_to_millis (base + chop_length * (n + 1)))))
        ⟨sec_to_millis (base + chop_length * n),
          sec_to_millis (base + chop_length * (n + 1))⟩,
      counter + n + 1) = _
    rw [dictIns_of_not_mem hnot, chopMap_succ, List.append_assoc]
    exact Prod.ext rfl (by omega)

/-- `chop_long_segment_duration` appends exactly its chop entries and
advances the counter by their number. -/
lemma chop_long_spec (segment_split_duration upper_limit : ℚ)
    (hu : 0 < upper_limit) (vad_span_start split_start sampling_rate : ℚ)
    (full_audio_id : List Char) (dict : SegDict) (counter : ℕ)
    (hc : 0 < counter) (hf : FreshDict full_audio_id dict counter) :
    chop_long_segment_duration segment_split_duration upper_limit hu
        vad_span_start split_start sampling_rate full_audio_id dict counter =
      (dict ++ chopEntries segment_split_duration upper_limit hu
          vad_span_start split_start sampling_rate full_audio_id counter,
        counter + (chopEntries segment_split_duration upper_limit hu
          vad_span_start split_start sampling_rate full_audio_id
          counter).length) := by
  unfold chop_long_segment_duration chopEntries
  rw [chop_fold_spec _ _ _ _ dict counter hc hf, chopMap_length]

lemma chopEntries_fresh {segment_split_duration upper_limit : ℚ}
    {hu : 0 < upper_limit} {vad_span_start split_start sampling_rate : ℚ}
    {full_audio_id : List Char} {counter : ℕ} (hc : 0 < counter) :
    FreshDict full_audio_id
      (chopEntries segment_split_duration upper_limit hu vad_span_start
        split_start sampling_rate full_audio_id counter)
      (counter + (chopEntries segment_split_duration upper_limit hu
        vad_span_start split_start sampling_rate full_audio_id
        counter).length) := by
  unfold chopEntries
  rw [chopMap_length]
  exact chopMap_fresh _ hc

lemma freshDict_singleton {full_audio_id : List Char} {c : ℕ} {s e : ℤ}
    {v : Seg} {counter : ℕ} (hc : 0 < c) (hlt : c < counter) :
    FreshDict full_audio_id [(mkSegmentKey full_audio_id c s e, v)]
      counter := by
  intro p hp c2 hc2 s2 e2 hkey
  rcases List.mem_singleton.mp hp with rfl
  have := mkSegmentKey_counter_inj (by omega) (by omega) hkey
  omega

/-- `process_non_mute_segments` appends exactly its emitted entries,
advances the counter by their number, and preserves the freshness
invariant. -/
lemma pnms_spec (vad_span_start sampling_rate lower_limit upper_limit : ℚ)
    (hu : 0 < upper_limit) (full_audio_id : List Char) :
    ∀ (non_mute_segment_splits : List (ℚ × ℚ)) (dict : SegDict)
      (counter : ℕ), 0 < counter → FreshDict full_audio_id dict counter →
      process_non_mute_segments non_mute_segment_splits vad_span_start
          sampling_rate lower_limit upper_limit hu full_audio_id counter
          dict =
        (dict ++ pnmsEntries non_mute_segment_splits vad_span_start
            sampling_rate lower_limit upper_limit hu full_audio_id counter,
          counter + (pnmsEntries non_mute_segment_splits vad_span_start
            sampling_rate lower_limit upper_limit hu full_audio_id
            counter).length) ∧
      FreshDict full_audio_id
        (dict ++ pnmsEntries non_mute_segment_splits vad_span_start
          sampling_rate lower_limit upper_limit hu full_audio_id counter)
        (counter + (pnmsEntries non_mute_segment_splits vad_span_start
          sampling_rate lower_limit upper_limit hu full_audio_id
          counter).length) := by
  intro splits
  induction splits with
  | nil =>
    intro dict counter hc hf
    simp only [process_non_mute_segments, pnmsEntries, List.append_nil,
      List.length_nil, Nat.add_zero]
    exact ⟨trivial, hf⟩
  | cons hd rest ih =>
    obtain ⟨split_start, split_end⟩ := hd
    intro dict counter hc hf
    rw [process_non_mute_segments, pnmsEntries]
    split_ifs with h1 h2
    · have hnot := freshDict_not_mem hf (le_refl counter)
        (pyInt (sec_to_millis
          (vad_span_start + frame_to_sec split_start sampling_rate)))
        (pyInt (sec_to_millis
          (vad_span_start + frame_to_sec split_end sampling_rate)))
      rw [dictIns_of_not_mem hnot]
      have hf' : FreshDict full_audio_id
          (dict ++ [(mkSegmentKey full_audio_id counter
            (pyInt (sec_to_millis
              (vad_span_start + frame_to_sec split_start sampling_rate)))
            (pyInt (sec_to_millis
              (vad_span_start + frame_to_sec split_end sampling_rate))),
            ⟨sec_to_millis
              (vad_span_start + frame_to_sec split_start sampling_rate),
              sec_to_millis
              (vad_span_start + frame_to_sec split_end sampling_rate)⟩)])
          (counter + 1) :=
        freshDict_append (freshDict_mono hf (Nat.le_succ _))
          (freshDict_singleton hc (Nat.lt_succ_self _))
      obtain ⟨heq, hfr⟩ := ih _ (counter + 1) (by omega) hf'
      refine ⟨?_, ?_⟩
      · rw [heq]
        refine Prod.ext ?_ ?_
        · simp
        · simp only [List.length_cons]
          omega
      · have harr : (dict ++ [(mkSegmentKey full_audio_id counter
            (pyInt (sec_to_millis
              (vad_span_start + frame_to_sec split_start sampling_rate)))
            (pyInt (sec_to_millis
              (vad_span_start + frame_to_sec split_end sampling_rate))),
            ⟨sec_to_millis
              (vad_span_start + frame_to_sec split_start sampling_rate),
              sec_to_millis
              (vad_span_start + frame_to_sec split_end sampling_rate)⟩)]) ++
            pnmsEntries rest vad_span_start sampling_rate lower_limit
              upper_limit hu full_audio_id (counter + 1) =
            dict ++ ((mkSegmentKey full_audio_id counter
            (pyInt (sec_to_millis
              (vad_span_start + frame_to_sec split_start sampling_rate)))
            (pyInt (sec_to_millis
              (vad_span_start + frame_to_sec split_end sampling_rate))),
            ⟨sec_to_millis
              (vad_span_start + frame_to_sec split_start sampling_rate),
              sec_to_millis
              (vad_span_start + frame_to_sec split_end sampling_rate)⟩) ::
            pnmsEntries rest vad_span_start sampling_rate lower_limit
              upper_limit hu full_audio_id (counter + 1)) := by
          simp
        rw [harr] at hfr
        have hcnt : counter + 1 + (pnmsEntries rest vad_span_start
            sampling_rate lower_limit upper_limit hu full_audio_id
            (counter + 1)).length =
            counter + ((mkSegmentKey full_audio_id counter
            (pyInt (sec_to_millis
              (vad_span_start + frame_to_sec split_start sampling_rate)))
            (pyInt (sec_to_millis
              (vad_span_start + frame_to_sec split_end sampling_rate))),
            (⟨sec_to_millis
              (vad_span_start + frame_to_sec split_start sampling_rate),
              sec_to_millis
              (vad_span_start + frame_to_sec split_end sampling_rate)⟩ :
              Seg)) ::
            pnmsEntries rest vad_span_start sampling_rate lower_limit
              upper_limit hu full_audio_id (counter + 1)).length := by
          simp only [List.length_cons]
          omega
        rw [hcnt] at hfr
        exact hfr
    · rw [chop_long_spec _ _ _ _ _ _ _ _ _ hc hf]
      have hf' : FreshDict full_audio_id
          (dict ++ chopEntries
            ((vad_span_start + frame_to_sec split_end sampling_rate) -
              (vad_span_start + frame_to_sec split_start sampling_rate))
            upper_limit hu vad_span_start split_start sampling_rate
            full_audio_id counter)
          (counter + (chopEntries
            ((vad_span_start + frame_to_sec split_end sampling_rate) -
              (vad_span_start + frame_to_sec split_start sampling_rate))
            upper_limit hu vad_span_start split_start sampling_rate
            full_audio_id counter).length) :=
        freshDict_append
          (freshDict_mono hf (Nat.le_add_right _ _)) (chopEntries_fresh hc)
      obtain ⟨heq, hfr⟩ := ih _ _ (by omega) hf'
      refine ⟨?_, ?_⟩
      · rw [heq]
        refine Prod.ext ?_ ?_
        · simp
        · simp only [List.length_append]
          omega
      · rw [List.append_assoc] at hfr
        have hcnt : counter + (chopEntries
            ((vad_span_start + frame_to_sec split_end sampling_rate) -
              (vad_span_start + frame_to_sec split_start sampling_rate))
            upper_limit hu vad_span_start split_start sampling_rate
            full_audio_id counter).length +
            (pnmsEntries rest vad_span_start sampling_rate lower_limit
              upper_limit hu full_audio_id
              (counter + (chopEntries
                ((vad_span_start + frame_to_sec split_end sampling_rate) -
                  (vad_span_start + frame_to_sec split_start sampling_rate))
                upper_limit hu vad_span_start split_start sampling_rate
                full_audio_id counter).length)).length =
            counter + (chopEntries
              ((vad_span_start + frame_to_sec split_end sampling_rate) -
                (vad_span_start + frame_to_sec split_start sampling_rate))
              upper_limit hu vad_span_start split_start sampling_rate
              full_audio_id counter ++
              pnmsEntries rest vad_span_start sampling_rate lower_limit
                upper_limit hu full_audio_id
                (counter + (chopEntries
                  ((vad_span_start + frame_to_sec split_end sampling_rate) -
                    (vad_span_start + frame_to_sec split_start
                      sampling_rate))
                  upper_limit hu vad_span_start split_start sampling_rate
                  full_audio_id counter).length)).length := by
          simp only [List.length_append]
          omega
        rw [hcnt] at hfr
        exact hfr
    · exact ih _ _ hc hf

/-- Freshness of the entries emitted by `process_non_mute_segments`
considered on their own. -/
lemma pnmsEntries_fresh (non_mute_segment_splits : List (ℚ × ℚ))
    (vad_span_start sampling_rate lower_limit upper_limit : ℚ)
    (hu : 0 < upper_limit) (full_audio_id : List Char) (counter : ℕ)
    (hc : 0 < counter) :
    FreshDict full_audio_id
      (pnmsEntries non_mute_segment_splits vad_span_start sampling_rate
        lower_limit upper_limit hu full_audio_id counter)
      (counter + (pnmsEntries non_mute_segment_splits vad_span_start
        sampling_rate lower_limit upper_limit hu full_audio_id
        counter).length) := by
  have h := (pnms_spec vad_span_start sampling_rate lower_limit upper_limit
    hu full_audio_id non_mute_segment_splits [] counter hc
    (fun p hp => absurd hp (List.not_mem_nil p))).2
  simpa using h

lemma step_append_one {full_audio_id : List Char} {dict : SegDict}
    {counter : ℕ} (hc : 0 < counter)
    (hf : FreshDict full_audio_id dict counter) (s e : ℤ) (v : Seg) :
    dictIns dict (mkSegmentKey full_audio_id counter s e) v =
        dict ++ [(mkSegmentKey full_audio_id counter s e, v)] ∧
      FreshDict full_audio_id
        (dict ++ [(mkSegmentKey full_audio_id counter s e, v)])
        (counter + 1) :=
  ⟨dictIns_of_not_mem (freshDict_not_mem hf (le_refl _) _ _),
    freshDict_append (freshDict_mono hf (Nat.le_succ _))
      (freshDict_singleton hc (Nat.lt_succ_self _))⟩

lemma fresh_reassoc_cons {full_audio_id : List Char} {dict : SegDict}
    {p : List Char × Seg} {rest : SegDict} {counter : ℕ}
    (hfr : FreshDict full_audio_id ((dict ++ [p]) ++ rest)
      (counter + 1 + rest.length)) :
    FreshDict full_audio_id (dict ++ p :: rest)
      (counter + (p :: rest).length) := by
  have h1 : (dict ++ [p]) ++ rest = dict ++ p :: rest := by simp
  have h2 : counter + 1 + rest.length = counter + (p :: rest).length := by
    simp only [List.length_cons]
    omega
  rw [h1, h2] at hfr
  exact hfr

lemma pair_reassoc_cons {dict : SegDict} {p : List Char × Seg}
    {rest : SegDict} {counter : ℕ} :
    ((dict ++ [p]) ++ rest, counter + 1 + rest.length) =
      (dict ++ p :: rest, counter + (p :: rest).length) :=
  Prod.ext (by simp) (by simp only [List.length_cons]; omega)

lemma fresh_reassoc_append {full_audio_id : List Char}
    {dict d1 rest : SegDict} {counter : ℕ}
    (hfr : FreshDict full_audio_id ((dict ++ d1) ++ rest)
      (counter + d1.length + rest.length)) :
    FreshDict full_audio_id (dict ++ (d1 ++ rest))
      (counter + (d1 ++ rest).length) := by
  have h1 : (dict ++ d1) ++ rest = dict ++ (d1 ++ rest) := by simp
  have h2 : counter + d1.length + rest.length =
      counter + (d1 ++ rest).length := by
    simp only [List.length_append]
    omega
  rw [h1, h2] at hfr
  exact hfr

lemma pair_reassoc_append {dict d1 rest : SegDict} {counter : ℕ} :
    ((dict ++ d1) ++ rest, counter + d1.length + rest.length) =
      (dict ++ (d1 ++ rest), counter + (d1 ++ rest).length) :=
  Prod.ext (by simp) (by simp only [List.length_append]; omega)

/-- The pyannote per-span loop appends exactly its emitted entries,
advances the counter by their number, and preserves freshness. -/
lemma gsa_loop_spec (nonMute : VadSpan → List (ℚ × ℚ))
    (sampling_rate lower_limit upper_limit : ℚ) (hu : 0 < upper_limit)
    (full_audio_id : List Char) :
    ∀ (spans : List VadSpan) (dict : SegDict) (counter : ℕ),
      0 < counter → FreshDict full_audio_id dict counter →
      get_split_audio_loop spans nonMute sampling_rate lower_limit
          upper_limit hu full_audio_id dict counter =
        (dict ++ gsaEntries spans nonMute sampling_rate lower_limit
            upper_limit hu full_audio_id counter,
          counter + (gsaEntries spans nonMute sampling_rate lower_limit
            upper_limit hu full_audio_id counter).length) ∧
      FreshDict full_audio_id
        (dict ++ gsaEntries spans nonMute sampling_rate lower_limit
          upper_limit hu full_audio_id counter)
        (counter + (gsaEntries spans nonMute sampling_rate lower_limit
          upper_limit hu full_audio_id counter).length) := by
  intro spans
  induction spans with
  | nil =>
    intro dict counter hc hf
    simp only [get_split_audio_loop, gsaEntries, List.append_nil,
      List.length_nil, Nat.add_zero]
    exact ⟨trivial, hf⟩
  | cons vad_span rest ih =>
    intro dict counter hc hf
    rw [get_split_audio_loop, gsaEntries]
    split_ifs with h1 h2
    · obtain ⟨hins, hf'⟩ := step_append_one hc hf
        (pyInt (sec_to_millis vad_span.start))
        (pyInt (sec_to_millis vad_span.stop))
        ⟨sec_to_millis vad_span.start, sec_to_millis vad_span.stop⟩
      rw [hins]
      obtain ⟨heq, hfr⟩ := ih _ (counter + 1) (by omega) hf'
      rw [heq]
      exact ⟨pair_reassoc_cons, fresh_reassoc_cons hfr⟩
    · obtain ⟨heqp, hfp⟩ := pnms_spec vad_span.start sampling_rate
        lower_limit upper_limit hu full_audio_id (nonMute vad_span) dict
        counter hc hf
      rw [heqp]
      obtain ⟨heq, hfr⟩ := ih _ _ (by omega) hfp
      rw [heq]
      exact ⟨pair_reassoc_append, fresh_reassoc_append hfr⟩
    · exact ih _ _ hc hf

/-- The Silero per-timestamp loop appends exactly its emitted entries,
advances the counter by their number, and preserves freshness. -/
lemma silero_loop_spec (nonMute : ℕ × ℕ → List (ℚ × ℚ))
    (lower_limit upper_limit : ℚ) (hu : 0 < upper_limit)
    (full_audio_id : List Char) :
    ∀ (speech_timestamps : List (ℕ × ℕ)) (dict : SegDict) (counter : ℕ),
      0 < counter → FreshDict full_audio_id dict counter →
      get_split_audio_using_silero_loop speech_timestamps nonMute
          lower_limit upper_limit hu full_audio_id dict counter =
        (dict ++ sileroEntries speech_timestamps nonMute lower_limit
            upper_limit hu full_audio_id counter,
          counter + (sileroEntries speech_timestamps nonMute lower_limit
            upper_limit hu full_audio_id counter).length) ∧
      FreshDict full_audio_id
        (dict ++ sileroEntries speech_timestamps nonMute lower_limit
          upper_limit hu full_audio_id counter)
        (counter + (sileroEntries speech_timestamps nonMute lower_limit
          upper_limit hu full_audio_id counter).length) := by
  intro speech_timestamps
  induction speech_timestamps with
  | nil =>
    intro dict counter hc hf
    simp only [get_split_audio_using_silero_loop, sileroEntries,
      List.append_nil, List.length_nil, Nat.add_zero]
    exact ⟨trivial, hf⟩
  | cons ts rest ih =>
    obtain ⟨start_frame, end_frame⟩ := ts
    intro dict counter hc hf
    rw [get_split_audio_using_silero_loop, sileroEntries]
    split_ifs with h1 h2
    · obtain ⟨hins, hf'⟩ := step_append_one hc hf
        (pyInt (sec_to_millis ((start_frame : ℚ) / 16000)))
        (pyInt (sec_to_millis ((end_frame : ℚ) / 16000)))
        ⟨sec_to_millis ((start_frame : ℚ) / 16000),
          sec_to_millis ((end_frame : ℚ) / 16000)⟩
      dsimp only
      rw [hins]
      obtain ⟨heq, hfr⟩ := ih _ (counter + 1) (by omega) hf'
      rw [heq]
      exact ⟨pair_reassoc_cons, fresh_reassoc_cons hfr⟩
    · obtain ⟨heqp, hfp⟩ := pnms_spec ((start_frame : ℚ) / 16000) 16000
        lower_limit upper_limit hu full_audio_id
        (nonMute (start_frame, end_frame)) dict counter hc hf
      rw [heqp]
      obtain ⟨heq, hfr⟩ := ih _ _ (by omega) hfp
      rw [heq]
      exact ⟨pair_reassoc_append, fresh_reassoc_append hfr⟩
    · exact ih _ _ hc hf

lemma chopEntry_duration (chop_length base : ℚ) (full_audio_id : List Char)
    (counter i : ℕ) :
    segDuration (chopEntry chop_length base full_audio_id counter i).2 =
      chop_length := by
  simp only [chopEntry, segDuration, sec_to_millis]
  ring

lemma chopEntries_duration {segment_split_duration upper_limit : ℚ}
    {hu : 0 < upper_limit} {vad_span_start split_start sampling_rate : ℚ}
    {full_audio_id : List Char} {counter : ℕ} {p : List Char × Seg}
    (hp : p ∈ chopEntries segment_split_duration upper_limit hu
      vad_span_start split_start sampling_rate full_audio_id counter) :
    segDuration p.2 =
      chop_loop upper_limit hu (segment_split_duration / 2) := by
  unfold chopEntries chopMap at hp
  rcases List.mem_map.mp hp with ⟨i, _, rfl⟩
  exact chopEntry_duration _ _ _ _ _

lemma chopEntries_segOk {segment_split_duration upper_limit lower_limit : ℚ}
    {hu : 0 < upper_limit} {vad_span_start split_start sampling_rate : ℚ}
    {full_audio_id : List Char} {counter : ℕ}
    (hd : upper_limit < segment_split_duration) :
    ∀ p ∈ chopEntries segment_split_duration upper_limit hu vad_span_start
      split_start sampling_rate full_audio_id counter,
      SegOk lower_limit upper_limit p := by
  intro p hp
  rw [SegOk, chopEntries_duration hp]
  refine ⟨chop_loop_le_upper _ _ _, Or.inr ?_⟩
  exact chop_loop_gt_half _ _ _ (by linarith)

lemma pnmsEntries_segOk (vad_span_start sampling_rate lower_limit
    upper_limit : ℚ) (hu : 0 < upper_limit) (full_audio_id : List Char) :
    ∀ (non_mute_segment_splits : List (ℚ × ℚ)) (counter : ℕ),
      ∀ p ∈ pnmsEntries non_mute_segment_splits vad_span_start
        sampling_rate lower_limit upper_limit hu full_audio_id counter,
        SegOk lower_limit upper_limit p := by
  intro splits
  induction splits with
  | nil => intro counter p hp; simp [pnmsEntries] at hp
  | cons hd rest ih =>
    obtain ⟨split_start, split_end⟩ := hd
    intro counter p hp
    rw [pnmsEntries] at hp
    split_ifs at hp with h1 h2
    · rcases List.mem_cons.mp hp with rfl | hp
      · refine ⟨?_, Or.inl ?_⟩ <;>
          simp only [segDuration, sec_to_millis] <;>
          [skip; skip] <;> nlinarith [h1.1, h1.2]
      · exact ih _ p hp
    · rcases List.mem_append.mp hp with hp | hp
      · exact chopEntries_segOk h2 p hp
      · exact ih _ p hp
    · exact ih _ p hp

lemma gsaEntries_segOk (nonMute : VadSpan → List (ℚ × ℚ))
    (sampling_rate lower_limit upper_limit : ℚ) (hu : 0 < upper_limit)
    (full_audio_id : List Char) :
    ∀ (spans : List VadSpan) (counter : ℕ),
      ∀ p ∈ gsaEntries spans nonMute sampling_rate lower_limit upper_limit
        hu full_audio_id counter, SegOk lower_limit upper_limit p := by
  intro spans
  induction spans with
  | nil => intro counter p hp; simp [gsaEntries] at hp
  | cons vad_span rest ih =>
    intro counter p hp
    rw [gsaEntries] at hp
    split_ifs at hp with h1 h2
    · rcases List.mem_cons.mp hp with rfl | hp
      · refine ⟨?_, Or.inl ?_⟩ <;>
          simp only [segDuration, sec_to_millis] <;>
          [skip; skip] <;> nlinarith [h1.1, h1.2]
      · exact ih _ p hp
    · rcases List.mem_append.mp hp with hp | hp
      · exact pnmsEntries_segOk _ _ _ _ _ _ _ _ p hp
      · exact ih _ p hp
    · exact ih _ p hp

lemma sileroEntries_segOk (nonMute : ℕ × ℕ → List (ℚ × ℚ))
    (lower_limit upper_limit : ℚ) (hu : 0 < upper_limit)
    (full_audio_id : List Char) :
    ∀ (speech_timestamps : List (ℕ × ℕ)) (counter : ℕ),
      ∀ p ∈ sileroEntries speech_timestamps nonMute lower_limit upper_limit
        hu full_audio_id counter, SegOk lower_limit upper_limit p := by
  intro tss
  induction tss with
  | nil => intro counter p hp; simp [sileroEntries] at hp
  | cons ts rest ih =>
    obtain ⟨start_frame, end_frame⟩ := ts
    intro counter p hp
    rw [sileroEntries] at hp
    split_ifs at hp with h1 h2
    · rcases List.mem_cons.mp hp with rfl | hp
      · refine ⟨?_, Or.inl ?_⟩ <;>
          simp only [segDuration, sec_to_millis] <;>
          [skip; skip] <;> nlinarith [h1.1, h1.2]
      · exact ih _ p hp
    · rcases List.mem_append.mp hp with hp | hp
      · exact pnmsEntries_segOk _ _ _ _ _ _ _ _ p hp
      · exact ih _ p hp
    · exact ih _ p hp

lemma indexedFrom_append {full_audio_id : List Char} :
    ∀ {l1 l2 : SegDict} {c : ℕ}, IndexedFrom full_audio_id c l1 →
      IndexedFrom full_audio_id (c + l1.length) l2 →
      IndexedFrom full_audio_id c (l1 ++ l2) := by
  intro l1
  induction l1 with
  | nil => intro l2 c _ h2; simpa using h2
  | cons p t ih =>
    intro l2 c h1 h2
    rw [IndexedFrom.eq_def] at h1
    rw [List.cons_append, IndexedFrom.eq_def]
    refine ⟨h1.1, ih h1.2 ?_⟩
    have : c + 1 + t.length = c + (p :: t).length := by
      simp only [List.length_cons]
      omega
    rw [this]
    exact h2

lemma indexedFrom_mem {full_audio_id : List Char} :
    ∀ {l : SegDict} {c : ℕ}, IndexedFrom full_audio_id c l →
      ∀ p ∈ l, ∃ (c' : ℕ) (seg : Seg), c ≤ c' ∧
        p = (mkSegmentKey full_audio_id c' (pyInt seg.startMs)
          (pyInt seg.endMs), seg) := by
  intro l
  induction l with
  | nil => intro c _ p hp; simp at hp
  | cons q t ih =>
    intro c h p hp
    rw [IndexedFrom.eq_def] at h
    rcases List.mem_cons.mp hp with rfl | hp
    · rcases h.1 with ⟨seg, hseg⟩
      exact ⟨c, seg, le_refl c, hseg⟩
    · rcases ih h.2 p hp with ⟨c', seg, hc', hseg⟩
      exact ⟨c', seg, by omega, hseg⟩

/-- Entries with consecutive counter values starting at a positive value
have pairwise distinct keys. -/
lemma indexedFrom_pairwise_ne {full_audio_id : List Char} :
    ∀ {l : SegDict} {c : ℕ}, 0 < c → IndexedFrom full_audio_id c l →
      l.Pairwise (fun p q => p.1 ≠ q.1) := by
  intro l
  induction l with
  | nil => intro c _ _; exact List.Pairwise.nil
  | cons q t ih =>
    intro c hc h
    rw [IndexedFrom.eq_def] at h
    refine List.Pairwise.cons ?_ (ih (by omega) h.2)
    intro p hp hqp
    rcases h.1 with ⟨seg, rfl⟩
    rcases indexedFrom_mem h.2 p hp with ⟨c', seg', hc', rfl⟩
    have := mkSegmentKey_counter_inj (by omega) (by omega) hqp
    omega

lemma chopMap_indexed (chop_length base : ℚ) (full_audio_id : List Char)
    (counter : ℕ) :
    ∀ N : ℕ, IndexedFrom full_audio_id counter
      (chopMap chop_length base full_audio_id counter N) := by
  intro N
  induction N with
  | zero => simp [chopMap, IndexedFrom]
  | succ n ihn =>
    rw [chopMap_succ]
    refine indexedFrom_append ihn ?_
    rw [chopMap_length]
    exact ⟨⟨⟨sec_to_millis (base + chop_length * n),
      sec_to_millis (base + chop_length * (n + 1))⟩, rfl⟩, trivial⟩

lemma chopEntries_indexed (segment_split_duration upper_limit : ℚ)
    (hu : 0 < upper_limit) (vad_span_start split_start sampling_rate : ℚ)
    (full_audio_id : List Char) (counter : ℕ) :
    IndexedFrom full_audio_id counter
      (chopEntries segment_split_duration upper_limit hu vad_span_start
        split_start sampling_rate full_audio_id counter) :=
  chopMap_indexed _ _ _ _ _

lemma pnmsEntries_indexed (vad_span_start sampling_rate lower_limit
    upper_limit : ℚ) (hu : 0 < upper_limit) (full_audio_id : List Char) :
    ∀ (non_mute_segment_splits : List (ℚ × ℚ)) (counter : ℕ),
      IndexedFrom full_audio_id counter
        (pnmsEntries non_mute_segment_splits vad_span_start sampling_rate
          lower_limit upper_limit hu full_audio_id counter) := by
  intro splits
  induction splits with
  | nil => intro counter; simp [pnmsEntries, IndexedFrom]
  | cons hd rest ih =>
    obtain ⟨split_start, split_end⟩ := hd
    intro counter
    rw [pnmsEntries]
    split_ifs with h1 h2
    · exact ⟨⟨⟨sec_to_millis
        (vad_span_start + frame_to_sec split_start sampling_rate),
        sec_to_millis
        (vad_span_start + frame_to_sec split_end sampling_rate)⟩, rfl⟩,
        ih (counter + 1)⟩
    · exact indexedFrom_append
        (chopEntries_indexed _ _ _ _ _ _ _ _) (ih _)
    · exact ih counter

lemma gsaEntries_indexed (nonMute : VadSpan → List (ℚ × ℚ))
    (sampling_rate lower_limit upper_limit : ℚ) (hu : 0 < upper_limit)
    (full_audio_id : List Char) :
    ∀ (spans : List VadSpan) (counter : ℕ),
      IndexedFrom full_audio_id counter
        (gsaEntries spans nonMute sampling_rate lower_limit upper_limit hu
          full_audio_id counter) := by
  intro spans
  induction spans with
  | nil => intro counter; simp [gsaEntries, IndexedFrom]
  | cons vad_span rest ih =>
    intro counter
    rw [gsaEntries]
    split_ifs with h1 h2
    · exact ⟨⟨⟨sec_to_millis vad_span.start,
        sec_to_millis vad_span.stop⟩, rfl⟩, ih (counter + 1)⟩
    · exact indexedFrom_append
        (pnmsEntries_indexed _ _ _ _ _ _ _ _) (ih _)
    · exact ih counter

lemma sileroEntries_indexed (nonMute : ℕ × ℕ → List (ℚ × ℚ))
    (lower_limit upper_limit : ℚ) (hu : 0 < upper_limit)
    (full_audio_id : List Char) :
    ∀ (speech_timestamps : List (ℕ × ℕ)) (counter : ℕ),
      IndexedFrom full_audio_id counter
        (sileroEntries speech_timestamps nonMute lower_limit upper_limit hu
          full_audio_id counter) := by
  intro tss
  induction tss with
  | nil => intro counter; simp [sileroEntries, IndexedFrom]
  | cons ts rest ih =>
    obtain ⟨start_frame, end_frame⟩ := ts
    intro counter
    rw [sileroEntries]
    split_ifs with h1 h2
    · exact ⟨⟨⟨sec_to_millis ((start_frame : ℚ) / 16000),
        sec_to_millis ((end_frame : ℚ) / 16000)⟩, rfl⟩, ih (counter + 1)⟩
    · exact indexedFrom_append
        (pnmsEntries_indexed _ _ _ _ _ _ _ _) (ih _)
    · exact ih counter

lemma sumDur_append (l1 l2 : SegDict) :
    sumDur (l1 ++ l2) = sumDur l1 + sumDur l2 := by
  simp [sumDur]

lemma sumDur_cons (p : List Char × Seg) (l : SegDict) :
    sumDur (p :: l) = segDuration p.2 + sumDur l := by
  simp [sumDur]

lemma pyInt_of_nonneg {q : ℚ} (h : 0 ≤ q) : pyInt q = ⌊q⌋ := by
  rw [pyInt, if_neg (not_lt.mpr h)]

lemma chopMap_sum (chop_length base : ℚ) (full_audio_id : List Char)
    (counter : ℕ) :
    ∀ N : ℕ, sumDur (chopMap chop_length base full_audio_id counter N) =
      N * chop_length := by
  intro N
  induction N with
  | zero => simp [chopMap, sumDur]
  | succ n ihn =>
    rw [chopMap_succ, sumDur_append, ihn, sumDur_cons,
      chopEntry_duration]
    simp [sumDur]
    ring

/-- The chops of one over-long sub-span never cover more than the
sub-span's duration. -/
lemma chopEntries_sum (segment_split_duration upper_limit : ℚ)
    (hu : 0 < upper_limit) (hd : upper_limit < segment_split_duration)
    (vad_span_start split_start sampling_rate : ℚ)
    (full_audio_id : List Char) (counter : ℕ) :
    sumDur (chopEntries segment_split_duration upper_limit hu
      vad_span_start split_start sampling_rate full_audio_id counter) ≤
      segment_split_duration := by
  have hclpos : 0 < chop_loop upper_limit hu (segment_split_duration / 2) :=
    chop_loop_pos _ hu _ (by linarith)
  unfold chopEntries
  rw [chopMap_sum]
  have hq : (0 : ℚ) ≤ segment_split_duration /
      chop_loop upper_limit hu (segment_split_duration / 2) :=
    div_nonneg (by linarith) hclpos.le
  have hpy := pyInt_of_nonneg hq
  have hfl : (0 : ℤ) ≤ ⌊segment_split_duration /
      chop_loop upper_limit hu (segment_split_duration / 2)⌋ :=
    Int.floor_nonneg.mpr hq
  have hNq : (((pyInt (segment_split_duration /
      chop_loop upper_limit hu (segment_split_duration / 2))).toNat : ℚ)) =
      ((⌊segment_split_duration /
        chop_loop upper_limit hu (segment_split_duration / 2)⌋ : ℤ) : ℚ) := by
    rw [hpy]
    exact_mod_cast congrArg (fun z : ℤ => (z : ℚ))
      (Int.toNat_of_nonneg hfl)
  rw [hNq]
  have hle : ((⌊segment_split_duration /
      chop_loop upper_limit hu (segment_split_duration / 2)⌋ : ℤ) : ℚ) ≤
      segment_split_duration /
        chop_loop upper_limit hu (segment_split_duration / 2) :=
    Int.floor_le _
  have := mul_le_mul_of_nonneg_right hle hclpos.le
  rwa [div_mul_cancel₀ _ (ne_of_gt hclpos)] at this

lemma splitsChain_sum :
    ∀ {splits : List (ℚ × ℚ)} {lo hi : ℚ}, lo ≤ hi →
      SplitsChain lo hi splits →
      (splits.map (fun ab => ab.2 - ab.1)).sum ≤ hi - lo := by
  intro splits
  induction splits with
  | nil => intro lo hi h _; simpa using h
  | cons hd rest ih =>
    obtain ⟨a, b⟩ := hd
    intro lo hi _ hchain
    rw [SplitsChain] at hchain
    obtain ⟨hla, hab, hbh, hrest⟩ := hchain
    have := ih hbh hrest
    simp only [List.map_cons, List.sum_cons]
    linarith

lemma splitsChain_mem_le :
    ∀ {splits : List (ℚ × ℚ)} {lo hi : ℚ}, SplitsChain lo hi splits →
      ∀ ab ∈ splits, ab.1 ≤ ab.2 := by
  intro splits
  induction splits with
  | nil => intro lo hi _ ab hab; simp at hab
  | cons hd rest ih =>
    obtain ⟨a, b⟩ := hd
    intro lo hi hchain ab hab
    rw [SplitsChain] at hchain
    rcases List.mem_cons.mp hab with rfl | hab
    · exact hchain.2.1
    · exact ih hchain.2.2.2 ab hab

/-- The segments emitted for a list of sub-spans cover at most the total
width of the sub-spans. -/
lemma pnmsEntries_sum (vad_span_start sampling_rate lower_limit
    upper_limit : ℚ) (hu : 0 < upper_limit) (hsr : 0 < sampling_rate)
    (full_audio_id : List Char) :
    ∀ (splits : List (ℚ × ℚ)) (counter : ℕ),
      (∀ ab ∈ splits, ab.1 ≤ ab.2) →
      sumDur (pnmsEntries splits vad_span_start sampling_rate lower_limit
        upper_limit hu full_audio_id counter) ≤
        (splits.map (fun ab => ab.2 - ab.1)).sum / sampling_rate := by
  intro splits
  induction splits with
  | nil => intro counter _; simp [pnmsEntries, sumDur]
  | cons hd rest ih =>
    obtain ⟨a, b⟩ := hd
    intro counter hab
    have hd1 : a ≤ b := hab (a, b) (List.mem_cons_self _ _)
    have hrest := fun ab h => hab ab (List.mem_cons_of_mem _ h)
    have hdd : (vad_span_start + frame_to_sec b sampling_rate) -
        (vad_span_start + frame_to_sec a sampling_rate) =
        (b - a) / sampling_rate := by
      rw [frame_to_sec, frame_to_sec]
      ring
    have hdd0 : (0 : ℚ) ≤ (b - a) / sampling_rate := by
      apply div_nonneg (by linarith) hsr.le
    rw [pnmsEntries]
    split_ifs with h1 h2
    · rw [sumDur_cons]
      have hdur : segDuration
          (⟨sec_to_millis
            (vad_span_start + frame_to_sec a sampling_rate),
            sec_to_millis
            (vad_span_start + frame_to_sec b sampling_rate)⟩ : Seg) =
          (b - a) / sampling_rate := by
        rw [segDuration]
        simp only [sec_to_millis, frame_to_sec]
        ring
      rw [hdur]
      have := ih (counter + 1) hrest
      simp only [List.map_cons, List.sum_cons]
      rw [add_div]
      linarith
    · rw [sumDur_append]
      have hchop := chopEntries_sum
        ((vad_span_start + frame_to_sec b sampling_rate) -
          (vad_span_start + frame_to_sec a sampling_rate)) upper_limit hu
        h2 vad_span_start a sampling_rate full_audio_id counter
      have hrec := ih (counter + (chopEntries
        ((vad_span_start + frame_to_sec b sampling_rate) -
          (vad_span_start + frame_to_sec a sampling_rate)) upper_limit hu
        vad_span_start a sampling_rate full_audio_id counter).length) hrest
      simp only [List.map_cons, List.sum_cons]
      rw [add_div]
      linarith
    · have := ih counter hrest
      simp only [List.map_cons, List.sum_cons]
      rw [add_div]
      linarith

/-- The total number of halvings performed for a duration `d > upper` is
bounded by `⌈log₂ (d / upper)⌉`. -/
lemma chop_halvings_le_clog (d upper : ℚ) (hu : 0 < upper)
    (hd : upper < d) :
    (chop_steps upper hu (d / 2) + 1 : ℤ) ≤ Int.clog 2 (d / upper) := by
  have hdu1 : (1 : ℚ) < d / upper := (one_lt_div hu).mpr hd
  have hdu0 : (0 : ℚ) < d / upper := by linarith
  have hclog1 : 1 ≤ Int.clog 2 (d / upper) := by
    by_contra hcon
    push_neg at hcon
    have h0 : Int.clog 2 (d / upper) ≤ 0 := by omega
    have := (Int.le_zpow_iff_clog_le (by norm_num) hdu0).mpr h0
    rw [zpow_zero] at this
    linarith
  have hself : d / upper ≤ (2 : ℚ) ^ Int.clog 2 (d / upper) :=
    Int.self_le_zpow_clog (by norm_num) _
  have hmz : (((Int.clog 2 (d / upper)).toNat : ℤ)) =
      Int.clog 2 (d / upper) := Int.toNat_of_nonneg (by omega)
  have hm1 : 1 ≤ (Int.clog 2 (d / upper)).toNat := by omega
  have hpow : (2 : ℚ) ^ Int.clog 2 (d / upper) =
      (2 : ℚ) ^ ((Int.clog 2 (d / upper)).toNat : ℕ) := by
    conv_lhs => rw [← hmz]
    exact zpow_natCast 2 _
  have hdm : d / 2 ^ ((Int.clog 2 (d / upper)).toNat : ℕ) ≤ upper := by
    have h1 : d / upper ≤ (2 : ℚ) ^ ((Int.clog 2 (d / upper)).toNat : ℕ) := by
      rw [← hpow]
      exact hself
    have h2 : d ≤ upper * 2 ^ ((Int.clog 2 (d / upper)).toNat : ℕ) := by
      have h3 := mul_le_mul_of_nonneg_right h1 hu.le
      rw [div_mul_cancel₀ _ (ne_of_gt hu)] at h3
      nlinarith [pow_pos (show (0:ℚ) < 2 by norm_num)
        ((Int.clog 2 (d / upper)).toNat)]
    have hp : (0 : ℚ) < 2 ^ ((Int.clog 2 (d / upper)).toNat : ℕ) := by
      positivity
    rw [div_le_iff hp]
    linarith
  have hsplit : d / 2 / 2 ^ ((Int.clog 2 (d / upper)).toNat - 1 : ℕ) =
      d / 2 ^ ((Int.clog 2 (d / upper)).toNat : ℕ) := by
    have hexp : (2 : ℚ) * 2 ^ ((Int.clog 2 (d / upper)).toNat - 1 : ℕ) =
        2 ^ ((Int.clog 2 (d / upper)).toNat : ℕ) := by
      rw [← pow_succ']
      congr 1
      omega
    rw [← hexp]
    ring
  have hsteps : chop_steps upper hu (d / 2) ≤
      (Int.clog 2 (d / upper)).toNat - 1 :=
    chop_steps_le upper hu (d / 2) _ (by rw [hsplit]; exact hdm)
  omega

lemma chop_len_pow (d upper : ℚ) (hu : 0 < upper) :
    chop_loop upper hu (d / 2) =
      d / 2 ^ (chop_steps upper hu (d / 2) + 1) := by
  rw [chop_loop_eq_div_pow, pow_succ]
  ring

lemma div_chop_len (d upper : ℚ) (hu : 0 < upper) (hd : upper < d) :
    d / chop_loop upper hu (d / 2) =
      (2 : ℚ) ^ (chop_steps upper hu (d / 2) + 1) := by
  have hd0 : d ≠ 0 := by linarith
  rw [chop_len_pow d upper hu, div_div_eq_mul_div, mul_comm,
    mul_div_assoc, div_self hd0, mul_one]

lemma pyInt_two_pow (k : ℕ) : pyInt ((2 : ℚ) ^ k) = 2 ^ k := by
  rw [pyInt_of_nonneg (by positivity)]
  have h : ((2 : ℚ)) ^ k = (((2 : ℤ) ^ k : ℤ) : ℚ) := by
    push_cast
    ring
  rw [h, Int.floor_intCast]

/-- C8.  The three unit converters are the stated one-line transforms, and
for any nonzero sampling rate the frame/second conversions are mutually
inverse. -/
theorem claim_C8 (s f sr : ℚ) (hsr : sr ≠ 0) :
    sec_to_millis s = s * 1000 ∧ frame_to_sec f sr = f / sr ∧
      sec_to_frame s sr = s * sr ∧
      frame_to_sec (sec_to_frame s sr) sr = s ∧
      sec_to_frame (frame_to_sec f sr) sr = f := by
  refine ⟨rfl, rfl, rfl, ?_, ?_⟩
  · rw [sec_to_frame, frame_to_sec]
    exact mul_div_cancel_right₀ s hsr
  · rw [frame_to_sec, sec_to_frame]
    exact div_mul_cancel₀ f hsr

theorem claim_C8_witness :
    (3 : ℚ) ≠ 0 ∧ (sec_to_millis 2 = 2 * 1000 ∧ frame_to_sec 5 3 = 5 / 3 ∧
      sec_to_frame 2 3 = 2 * 3 ∧ frame_to_sec (sec_to_frame 2 3) 3 = 2 ∧
      sec_to_frame (frame_to_sec 5 3) 3 = 5) :=
  ⟨by norm_num, claim_C8 2 5 3 (by norm_num)⟩

/-- C4.  For a duration `D > upper_limit > 0` the halving process
terminates with the value `D / 2 ^ K`, where `K` — one implicit halving to
`D/2` plus the loop iterations — is at most `⌈log₂ (D / upper_limit)⌉`,
and the resulting chop length is `≤ upper_limit`. -/
theorem claim_C4 (D upper_limit : ℚ) (hu : 0 < upper_limit)
    (hD : upper_limit < D) :
    chop_loop upper_limit hu (D / 2) =
        D / 2 ^ (chop_steps upper_limit hu (D / 2) + 1) ∧
      chop_loop upper_limit hu (D / 2) ≤ upper_limit ∧
      (chop_steps upper_limit hu (D / 2) + 1 : ℤ) ≤
        Int.clog 2 (D / upper_limit) :=
  ⟨chop_len_pow D upper_limit hu, chop_loop_le_upper upper_limit hu (D / 2),
    chop_halvings_le_clog D upper_limit hu hD⟩

theorem claim_C4_witness :
    ((0 : ℚ) < 8 ∧ (8 : ℚ) < 9) ∧
      (chop_loop 8 (by decide) ((9 : ℚ) / 2) =
          9 / 2 ^ (chop_steps 8 (by decide) ((9 : ℚ) / 2) + 1) ∧
        chop_loop 8 (by decide) ((9 : ℚ) / 2) ≤ 8 ∧
        (chop_steps 8 (by decide) ((9 : ℚ) / 2) + 1 : ℤ) ≤
          Int.clog 2 ((9 : ℚ) / 8)) :=
  ⟨⟨by decide, by decide⟩, claim_C4 9 8 (by decide) (by decide)⟩

/-- In exact arithmetic the chops cover the whole sub-span: their
durations sum to exactly the duration being chopped. -/
lemma chopEntries_sum_exact (D upper_limit : ℚ) (hu : 0 < upper_limit)
    (hD : upper_limit < D) (vad_span_start split_start sampling_rate : ℚ)
    (full_audio_id : List Char) (counter : ℕ) :
    sumDur (chopEntries D upper_limit hu vad_span_start split_start
      sampling_rate full_audio_id counter) = D := by
  unfold chopEntries
  rw [chopMap_sum]
  have hdiv := div_chop_len D upper_limit hu hD
  have hpy : pyInt (D / chop_loop upper_limit hu (D / 2)) =
      2 ^ (chop_steps upper_limit hu (D / 2) + 1) := by
    rw [hdiv, pyInt_two_pow]
  rw [hpy]
  have htn : ((2 : ℤ) ^ (chop_steps upper_limit hu (D / 2) + 1)).toNat =
      2 ^ (chop_steps upper_limit hu (D / 2) + 1) := by
    have : ((2 : ℤ) ^ (chop_steps upper_limit hu (D / 2) + 1)) =
        ((2 ^ (chop_steps upper_limit hu (D / 2) + 1) : ℕ) : ℤ) := by
      push_cast
      ring
    rw [this, Int.toNat_natCast]
  rw [htn, chop_len_pow D upper_limit hu]
  have hp : ((2 : ℚ) ^ (chop_steps upper_limit hu (D / 2) + 1)) ≠ 0 := by
    positivity
  push_cast
  field_simp

/-- C9.  In exact rational arithmetic the final chop length is `D / 2 ^ k`
with `k ≥ 1`, the chop count `int(D / chop_length)` is exactly `2 ^ k`,
consecutive chops share their boundaries, and the chop durations sum to
exactly `D` — no tail remainder exists. -/
theorem claim_C9 (D upper_limit : ℚ) (hu : 0 < upper_limit)
    (hD : upper_limit < D) (vad_span_start split_start sampling_rate : ℚ)
    (full_audio_id : List Char) (counter : ℕ) :
    ∃ k : ℕ, 1 ≤ k ∧
      chop_loop upper_limit hu (D / 2) = D / 2 ^ k ∧
      pyInt (D / chop_loop upper_limit hu (D / 2)) = 2 ^ k ∧
      (∀ i : ℕ,
        (chopEntry (chop_loop upper_limit hu (D / 2))
          (vad_span_start + frame_to_sec split_start sampling_rate)
          full_audio_id counter i).2.endMs =
        (chopEntry (chop_loop upper_limit hu (D / 2))
          (vad_span_start + frame_to_sec split_start sampling_rate)
          full_audio_id counter (i + 1)).2.startMs) ∧
      sumDur (chopEntries D upper_limit hu vad_span_start split_start
        sampling_rate full_audio_id counter) = D := by
  refine ⟨chop_steps upper_limit hu (D / 2) + 1, by omega,
    chop_len_pow D upper_limit hu, ?_, ?_, ?_⟩
  · rw [div_chop_len D upper_limit hu hD, pyInt_two_pow]
  · intro i
    simp only [chopEntry, sec_to_millis]
    push_cast
    ring_nf
  · exact chopEntries_sum_exact D upper_limit hu hD vad_span_start
      split_start sampling_rate full_audio_id counter

theorem claim_C9_witness :
    ((0 : ℚ) < 8 ∧ (8 : ℚ) < 9) ∧
      (∃ k : ℕ, 1 ≤ k ∧
        chop_loop 8 (by decide) ((9 : ℚ) / 2) = 9 / 2 ^ k ∧
        pyInt (9 / chop_loop 8 (by decide) ((9 : ℚ) / 2)) = 2 ^ k ∧
        (∀ i : ℕ,
          (chopEntry (chop_loop 8 (by decide) ((9 : ℚ) / 2))
            (0 + frame_to_sec 0 1) ['a'] 1 i).2.endMs =
          (chopEntry (chop_loop 8 (by decide) ((9 : ℚ) / 2))
            (0 + frame_to_sec 0 1) ['a'] 1 (i + 1)).2.startMs) ∧
        sumDur (chopEntries 9 8 (by decide) 0 0 1 ['a'] 1) = 9) :=
  ⟨⟨by decide, by decide⟩, claim_C9 9 8 (by decide) (by decide) 0 0 1 ['a'] 1⟩

/-- C5.  After halving, `chop_long_segment_duration` emits exactly
`int(duration / chop_length)` (a floor) chops, all of width exactly
`chop_length`, appended to the dict with the counter advanced once per
chop; their total width never exceeds the duration and what is left over
is shorter than `chop_length`.  No lower-limit check is involved:
`lower_limit` is not even an argument of the function. -/
theorem claim_C5 (segment_split_duration upper_limit : ℚ)
    (hu : 0 < upper_limit) (hd : upper_limit < segment_split_duration)
    (vad_span_start split_start sampling_rate : ℚ)
    (full_audio_id : List Char) (split_audio : SegDict) (counter : ℕ)
    (hc : 0 < counter) (hf : FreshDict full_audio_id split_audio counter) :
    chop_long_segment_duration segment_split_duration upper_limit hu
        vad_span_start split_start sampling_rate full_audio_id split_audio
        counter =
      (split_audio ++ chopEntries segment_split_duration upper_limit hu
          vad_span_start split_start sampling_rate full_audio_id counter,
        counter + (chopEntries segment_split_duration upper_limit hu
          vad_span_start split_start sampling_rate full_audio_id
          counter).length) ∧
    (chopEntries segment_split_duration upper_limit hu vad_span_start
        split_start sampling_rate full_audio_id counter).length =
      (⌊segment_split_duration /
        chop_loop upper_limit hu (segment_split_duration / 2)⌋).toNat ∧
    (∀ p ∈ chopEntries segment_split_duration upper_limit hu vad_span_start
        split_start sampling_rate full_audio_id counter,
      segDuration p.2 =
        chop_loop upper_limit hu (segment_split_duration / 2)) ∧
    sumDur (chopEntries segment_split_duration upper_limit hu vad_span_start
        split_start sampling_rate full_audio_id counter) ≤
      segment_split_duration ∧
    segment_split_duration -
        sumDur (chopEntries segment_split_duration upper_limit hu
          vad_span_start split_start sampling_rate full_audio_id counter) <
      chop_loop upper_limit hu (segment_split_duration / 2) := by
  have hclpos : 0 < chop_loop upper_limit hu (segment_split_duration / 2) :=
    chop_loop_pos _ hu _ (by linarith)
  refine ⟨chop_long_spec segment_split_duration upper_limit hu
      vad_span_start split_start sampling_rate full_audio_id split_audio
      counter hc hf, ?_, fun p hp => chopEntries_duration hp, ?_, ?_⟩
  · unfold chopEntries
    rw [chopMap_length, pyInt_of_nonneg (div_nonneg (by linarith) hclpos.le)]
  · exact chopEntries_sum
      segment_split_duration upper_limit hu hd vad_span_start split_start
      sampling_rate full_audio_id counter
  · rw [chopEntries_sum_exact segment_split_duration upper_limit hu hd
      vad_span_start split_start sampling_rate full_audio_id counter]
    simpa using hclpos

theorem claim_C5_witness :
    ((0 : ℚ) < 8 ∧ (8 : ℚ) < 9 ∧ 0 < 1 ∧ FreshDict ['a'] [] 1) ∧
      (chop_long_segment_duration 9 8 (by decide) 0 0 1 ['a'] [] 1 =
          ([] ++ chopEntries 9 8 (by decide) 0 0 1 ['a'] 1,
            1 + (chopEntries 9 8 (by decide) 0 0 1 ['a'] 1).length) ∧
        (chopEntries 9 8 (by decide) 0 0 1 ['a'] 1).length =
          (⌊(9 : ℚ) / chop_loop 8 (by decide) ((9 : ℚ) / 2)⌋).toNat ∧
        (∀ p ∈ chopEntries 9 8 (by decide) 0 0 1 ['a'] 1,
          segDuration p.2 = chop_loop 8 (by decide) ((9 : ℚ) / 2)) ∧
        sumDur (chopEntries 9 8 (by decide) 0 0 1 ['a'] 1) ≤ 9 ∧
        (9 : ℚ) - sumDur (chopEntries 9 8 (by decide) 0 0 1 ['a'] 1) <
          chop_loop 8 (by decide) ((9 : ℚ) / 2)) :=
  ⟨⟨by decide, by decide, by decide,
      fun p hp => absurd hp (List.not_mem_nil p)⟩,
    claim_C5 9 8 (by decide) (by decide) 0 0 1 ['a'] [] 1 (by decide)
      (fun p hp => absurd hp (List.not_mem_nil p))⟩

/-- C10.  Both `chop_long_segment_duration` and
`process_non_mute_segments` only append entries to `split_audio` — the
input dict is a prefix of the output, so every earlier key keeps its
value — and the returned counter is the input counter plus the number of
appended entries. -/
theorem claim_C10 (segment_split_duration upper_limit : ℚ)
    (hu : 0 < upper_limit)
    (vad_span_start split_start sampling_rate lower_limit : ℚ)
    (non_mute_segment_splits : List (ℚ × ℚ)) (full_audio_id : List Char)
    (split_audio : SegDict) (counter : ℕ) (hc : 0 < counter)
    (hf : FreshDict full_audio_id split_audio counter) :
    (∃ added : SegDict,
      chop_long_segment_duration segment_split_duration upper_limit hu
          vad_span_start split_start sampling_rate full_audio_id
          split_audio counter =
        (split_audio ++ added, counter + added.length)) ∧
    (∃ added : SegDict,
      process_non_mute_segments non_mute_segment_splits vad_span_start
          sampling_rate lower_limit upper_limit hu full_audio_id counter
          split_audio =
        (split_audio ++ added, counter + added.length)) :=
  ⟨⟨chopEntries segment_split_duration upper_limit hu vad_span_start
      split_start sampling_rate full_audio_id counter,
    chop_long_spec segment_split_duration upper_limit hu vad_span_start
      split_start sampling_rate full_audio_id split_audio counter hc hf⟩,
    ⟨pnmsEntries non_mute_segment_splits vad_span_start sampling_rate
      lower_limit upper_limit hu full_audio_id counter,
    (pnms_spec vad_span_start sampling_rate lower_limit upper_limit hu
      full_audio_id non_mute_segment_splits split_audio counter hc hf).1⟩⟩

theorem claim_C10_witness :
    ((0 : ℚ) < 8 ∧ 0 < 1 ∧ FreshDict ['a'] [] 1) ∧
      ((∃ added : SegDict,
        chop_long_segment_duration 9 8 (by decide) 0 0 1 ['a'] [] 1 =
          ([] ++ added, 1 + added.length)) ∧
      (∃ added : SegDict,
        process_non_mute_segments [(0, 9)] 0 1 2 8 (by decide) ['a'] 1 [] =
          ([] ++ added, 1 + added.length))) :=
  ⟨⟨by decide, by decide, fun p hp => absurd hp (List.not_mem_nil p)⟩,
    claim_C10 9 8 (by decide) 0 0 1 2 [(0, 9)] ['a'] [] 1 (by decide)
      (fun p hp => absurd hp (List.not_mem_nil p))⟩

/-- C2.  A span or sub-span whose duration lies in
`[lower_limit, upper_limit]` yields exactly one appended segment covering
the whole span, stored under a Segment Key not present before, with the
shared counter incremented by one — at all three emission sites
(`process_non_mute_segments`, the pyannote loop, the Silero loop). -/
theorem claim_C2 (lower_limit upper_limit : ℚ) (hu : 0 < upper_limit)
    (full_audio_id : List Char) (dict : SegDict) (counter : ℕ)
    (hc : 0 < counter) (hf : FreshDict full_audio_id dict counter)
    (vad_span_start sampling_rate a b : ℚ)
    (h1 : lower_limit ≤ (vad_span_start + frame_to_sec b sampling_rate) -
      (vad_span_start + frame_to_sec a sampling_rate))
    (h2 : (vad_span_start + frame_to_sec b sampling_rate) -
      (vad_span_start + frame_to_sec a sampling_rate) ≤ upper_limit)
    (vad_span : VadSpan) (nonMute : VadSpan → List (ℚ × ℚ))
    (h3 : lower_limit ≤ vad_span.stop - vad_span.start)
    (h4 : vad_span.stop - vad_span.start ≤ upper_limit)
    (start_frame end_frame : ℕ) (nonMuteS : ℕ × ℕ → List (ℚ × ℚ))
    (h5 : lower_limit ≤ ((end_frame : ℚ) - (start_frame : ℚ)) / 16000)
    (h6 : ((end_frame : ℚ) - (start_frame : ℚ)) / 16000 ≤ upper_limit) :
    (process_non_mute_segments [(a, b)] vad_span_start sampling_rate
        lower_limit upper_limit hu full_audio_id counter dict =
      (dict ++ [(mkSegmentKey full_audio_id counter
          (pyInt (sec_to_millis
            (vad_span_start + frame_to_sec a sampling_rate)))
          (pyInt (sec_to_millis
            (vad_span_start + frame_to_sec b sampling_rate))),
          ⟨sec_to_millis (vad_span_start + frame_to_sec a sampling_rate),
            sec_to_millis
              (vad_span_start + frame_to_sec b sampling_rate)⟩)],
        counter + 1) ∧
      segDuration (⟨sec_to_millis
          (vad_span_start + frame_to_sec a sampling_rate),
          sec_to_millis
          (vad_span_start + frame_to_sec b sampling_rate)⟩ : Seg) =
        (vad_span_start + frame_to_sec b sampling_rate) -
          (vad_span_start + frame_to_sec a sampling_rate) ∧
      mkSegmentKey full_audio_id counter
          (pyInt (sec_to_millis
            (vad_span_start + frame_to_sec a sampling_rate)))
          (pyInt (sec_to_millis
            (vad_span_start + frame_to_sec b sampling_rate))) ∉
        dict.map Prod.fst) ∧
    (get_split_audio_loop [vad_span] nonMute sampling_rate lower_limit
        upper_limit hu full_audio_id dict counter =
      (dict ++ [(mkSegmentKey full_audio_id counter
          (pyInt (sec_to_millis vad_span.start))
          (pyInt (sec_to_millis vad_span.stop)),
          ⟨sec_to_millis vad_span.start, sec_to_millis vad_span.stop⟩)],
        counter + 1) ∧
      segDuration (⟨sec_to_millis vad_span.start,
          sec_to_millis vad_span.stop⟩ : Seg) =
        vad_span.stop - vad_span.start) ∧
    (get_split_audio_using_silero_loop [(start_frame, end_frame)] nonMuteS
        lower_limit upper_limit hu full_audio_id dict counter =
      (dict ++ [(mkSegmentKey full_audio_id counter
          (pyInt (sec_to_millis ((start_frame : ℚ) / 16000)))
          (pyInt (sec_to_millis ((end_frame : ℚ) / 16000))),
          ⟨sec_to_millis ((start_frame : ℚ) / 16000),
            sec_to_millis ((end_frame : ℚ) / 16000)⟩)],
        counter + 1) ∧
      segDuration (⟨sec_to_millis ((start_frame : ℚ) / 16000),
          sec_to_millis ((end_frame : ℚ) / 16000)⟩ : Seg) =
        ((end_frame : ℚ) - (start_frame : ℚ)) / 16000) := by
  refine ⟨⟨?_, ?_, freshDict_not_mem hf (le_refl _) _ _⟩, ⟨?_, ?_⟩,
    ⟨?_, ?_⟩⟩
  · rw [(pnms_spec vad_span_start sampling_rate lower_limit upper_limit hu
      full_audio_id [(a, b)] dict counter hc hf).1]
    rw [pnmsEntries, if_pos ⟨h1, h2⟩, pnmsEntries]
    simp only [List.length_singleton]
  · rw [segDuration]
    simp only [sec_to_millis]
    ring
  · rw [(gsa_loop_spec nonMute sampling_rate lower_limit upper_limit hu
      full_audio_id [vad_span] dict counter hc hf).1]
    rw [gsaEntries, if_pos ⟨h3, h4⟩, gsaEntries]
    simp only [List.length_singleton]
  · rw [segDuration]
    simp only [sec_to_millis]
    ring
  · rw [(silero_loop_spec nonMuteS lower_limit upper_limit hu full_audio_id
      [(start_frame, end_frame)] dict counter hc hf).1]
    rw [sileroEntries, if_pos ⟨h5, h6⟩, sileroEntries]
    simp only [List.length_singleton]
  · rw [segDuration]
    simp only [sec_to_millis]
    ring

/-- C3.  A sub-span whose duration is below `lower_limit` — in particular
any degenerate sub-span with `end ≤ start` when `lower_limit > 0` — is
dropped silently: processing it is the same as processing the remaining
sub-spans with the dict and the counter unchanged. -/
theorem claim_C3 (vad_span_start sampling_rate lower_limit
    upper_limit : ℚ) (hu : 0 < upper_limit)
    (hlu : lower_limit ≤ upper_limit) (full_audio_id : List Char)
    (dict : SegDict) (counter : ℕ) (rest : List (ℚ × ℚ)) (a b : ℚ) :
    ((vad_span_start + frame_to_sec b sampling_rate) -
        (vad_span_start + frame_to_sec a sampling_rate) < lower_limit →
      process_non_mute_segments ((a, b) :: rest) vad_span_start
          sampling_rate lower_limit upper_limit hu full_audio_id counter
          dict =
        process_non_mute_segments rest vad_span_start sampling_rate
          lower_limit upper_limit hu full_audio_id counter dict) ∧
    (b ≤ a → 0 < lower_limit → 0 < sampling_rate →
      process_non_mute_segments ((a, b) :: rest) vad_span_start
          sampling_rate lower_limit upper_limit hu full_audio_id counter
          dict =
        process_non_mute_segments rest vad_span_start sampling_rate
          lower_limit upper_limit hu full_audio_id counter dict) := by
  constructor
  · intro h
    rw [process_non_mute_segments]
    split_ifs with hA hB
    · exact absurd hA.1 (by linarith)
    · exact absurd hB (by linarith)
    · rfl
  · intro hba hl hsr
    have hdd : (vad_span_start + frame_to_sec b sampling_rate) -
        (vad_span_start + frame_to_sec a sampling_rate) =
        (b - a) / sampling_rate := by
      rw [frame_to_sec, frame_to_sec]
      ring
    have hnp : (vad_span_start + frame_to_sec b sampling_rate) -
        (vad_span_start + frame_to_sec a sampling_rate) ≤ 0 := by
      rw [hdd]
      exact div_nonpos_of_nonpos_of_nonneg (by linarith) hsr.le
    rw [process_non_mute_segments]
    split_ifs with hA hB
    · exact absurd hA.1 (by linarith)
    · exact absurd hB (by linarith)
    · rfl

/-- C6.  For an over-long span subdivided through the energy oracle, the
emitted segments cover at most the span's duration; when the oracle finds
nothing (pure silence), nothing at all is emitted. -/
theorem claim_C6 (span : VadSpan) (sampling_rate lower_limit
    upper_limit : ℚ) (hu : 0 < upper_limit) (hsr : 0 < sampling_rate)
    (hlen : upper_limit < span.stop - span.start)
    (splits : List (ℚ × ℚ))
    (hchain : SplitsChain 0
      (sec_to_frame (span.stop - span.start) sampling_rate) splits)
    (full_audio_id : List Char) (dict : SegDict) (counter : ℕ)
    (hc : 0 < counter) (hf : FreshDict full_audio_id dict counter) :
    (process_non_mute_segments splits span.start sampling_rate lower_limit
        upper_limit hu full_audio_id counter dict =
      (dict ++ pnmsEntries splits span.start sampling_rate lower_limit
          upper_limit hu full_audio_id counter,
        counter + (pnmsEntries splits span.start sampling_rate lower_limit
          upper_limit hu full_audio_id counter).length) ∧
      sumDur (pnmsEntries splits span.start sampling_rate lower_limit
        upper_limit hu full_audio_id counter) ≤
        span.stop - span.start) ∧
    process_non_mute_segments [] span.start sampling_rate lower_limit
        upper_limit hu full_audio_id counter dict = (dict, counter) := by
  refine ⟨⟨(pnms_spec span.start sampling_rate lower_limit upper_limit hu
    full_audio_id splits dict counter hc hf).1, ?_⟩, rfl⟩
  have hab := splitsChain_mem_le hchain
  have hsum := pnmsEntries_sum span.start sampling_rate lower_limit
    upper_limit hu hsr full_audio_id splits counter hab
  have hlo : (0 : ℚ) ≤ sec_to_frame (span.stop - span.start)
      sampling_rate := by
    rw [sec_to_frame]
    nlinarith
  have hcs := splitsChain_sum hlo hchain
  rw [sec_to_frame, sub_zero] at hcs
  have hfin : (splits.map (fun ab => ab.2 - ab.1)).sum / sampling_rate ≤
      span.stop - span.start := by
    rw [div_le_iff hsr]
    linarith
  linarith

theorem claim_C6_witness :
    ((0 : ℚ) < 8 ∧ (0 : ℚ) < 1 ∧
      (8 : ℚ) < (VadSpan.mk 0 9).stop - (VadSpan.mk 0 9).start ∧
      SplitsChain 0 (sec_to_frame
        ((VadSpan.mk 0 9).stop - (VadSpan.mk 0 9).start) 1) [(0, 9)] ∧
      0 < 1 ∧ FreshDict ['a'] [] 1) ∧
      ((process_non_mute_segments [(0, 9)] (VadSpan.mk 0 9).start 1 2 8
          (by decide) ['a'] 1 [] =
        ([] ++ pnmsEntries [(0, 9)] (VadSpan.mk 0 9).start 1 2 8
            (by decide) ['a'] 1,
          1 + (pnmsEntries [(0, 9)] (VadSpan.mk 0 9).start 1 2 8
            (by decide) ['a'] 1).length) ∧
        sumDur (pnmsEntries [(0, 9)] (VadSpan.mk 0 9).start 1 2 8
          (by decide) ['a'] 1) ≤
          (VadSpan.mk 0 9).stop - (VadSpan.mk 0 9).start) ∧
      process_non_mute_segments [] (VadSpan.mk 0 9).start 1 2 8
          (by decide) ['a'] 1 [] = ([], 1)) :=
  ⟨⟨by decide, by decide, by norm_num [VadSpan.stop, VadSpan.start],
      by norm_num [SplitsChain, sec_to_frame, VadSpan.stop, VadSpan.start],
      by decide, fun p hp => absurd hp (List.not_mem_nil p)⟩,
    claim_C6 (VadSpan.mk 0 9) 1 2 8 (by decide) (by decide)
      (by norm_num [VadSpan.stop, VadSpan.start]) [(0, 9)]
      (by norm_num [SplitsChain, sec_to_frame, VadSpan.stop, VadSpan.start])
      ['a'] [] 1 (by decide) (fun p hp => absurd hp (List.not_mem_nil p))⟩

theorem claim_C2_witness :
    ((0 : ℚ) < 8 ∧ 0 < 1 ∧ FreshDict ['a'] [] 1 ∧
      ((2 : ℚ) ≤ (0 + frame_to_sec 5 1) - (0 + frame_to_sec 0 1)) ∧
      ((0 : ℚ) + frame_to_sec 5 1 - (0 + frame_to_sec 0 1) ≤ 8) ∧
      ((2 : ℚ) ≤ (VadSpan.mk 0 5).stop - (VadSpan.mk 0 5).start) ∧
      ((VadSpan.mk 0 5).stop - (VadSpan.mk 0 5).start ≤ (8 : ℚ)) ∧
      ((2 : ℚ) ≤ ((80000 : ℕ) - (0 : ℕ) : ℚ) / 16000) ∧
      ((((80000 : ℕ) : ℚ) - ((0 : ℕ) : ℚ)) / 16000 ≤ 8)) ∧
      ((process_non_mute_segments [(0, 5)] 0 1 2 8 (by decide) ['a'] 1 [] =
        ([] ++ [(mkSegmentKey ['a'] 1
            (pyInt (sec_to_millis (0 + frame_to_sec 0 1)))
            (pyInt (sec_to_millis (0 + frame_to_sec 5 1))),
            ⟨sec_to_millis (0 + frame_to_sec 0 1),
              sec_to_millis (0 + frame_to_sec 5 1)⟩)], 1 + 1) ∧
        segDuration (⟨sec_to_millis (0 + frame_to_sec 0 1),
            sec_to_millis (0 + frame_to_sec 5 1)⟩ : Seg) =
          (0 + frame_to_sec 5 1) - (0 + frame_to_sec 0 1) ∧
        mkSegmentKey ['a'] 1
            (pyInt (sec_to_millis (0 + frame_to_sec 0 1)))
            (pyInt (sec_to_millis (0 + frame_to_sec 5 1))) ∉
          List.map Prod.fst ([] : SegDict)) ∧
      (get_split_audio_loop [VadSpan.mk 0 5] (fun _ => []) 1 2 8
          (by decide) ['a'] [] 1 =
        ([] ++ [(mkSegmentKey ['a'] 1
            (pyInt (sec_to_millis (VadSpan.mk 0 5).start))
            (pyInt (sec_to_millis (VadSpan.mk 0 5).stop)),
            ⟨sec_to_millis (VadSpan.mk 0 5).start,
              sec_to_millis (VadSpan.mk 0 5).stop⟩)], 1 + 1) ∧
        segDuration (⟨sec_to_millis (VadSpan.mk 0 5).start,
            sec_to_millis (VadSpan.mk 0 5).stop⟩ : Seg) =
          (VadSpan.mk 0 5).stop - (VadSpan.mk 0 5).start) ∧
      (get_split_audio_using_silero_loop [(0, 80000)] (fun _ => []) 2 8
          (by decide) ['a'] [] 1 =
        ([] ++ [(mkSegmentKey ['a'] 1
            (pyInt (sec_to_millis (((0 : ℕ) : ℚ) / 16000)))
            (pyInt (sec_to_millis (((80000 : ℕ) : ℚ) / 16000))),
            ⟨sec_to_millis (((0 : ℕ) : ℚ) / 16000),
              sec_to_millis (((80000 : ℕ) : ℚ) / 16000)⟩)], 1 + 1) ∧
        segDuration (⟨sec_to_millis (((0 : ℕ) : ℚ) / 16000),
            sec_to_millis (((80000 : ℕ) : ℚ) / 16000)⟩ : Seg) =
          (((80000 : ℕ) : ℚ) - ((0 : ℕ) : ℚ)) / 16000)) :=
  ⟨⟨by decide, by decide, fun p hp => absurd hp (List.not_mem_nil p),
      by norm_num [frame_to_sec], by norm_num [frame_to_sec],
      by norm_num [VadSpan.stop, VadSpan.start],
      by norm_num [VadSpan.stop, VadSpan.start],
      by norm_num, by norm_num⟩,
    claim_C2 2 8 (by decide) ['a'] [] 1 (by decide)
      (fun p hp => absurd hp (List.not_mem_nil p)) 0 1 0 5
      (by norm_num [frame_to_sec]) (by norm_num [frame_to_sec])
      (VadSpan.mk 0 5) (fun _ => [])
      (by norm_num [VadSpan.stop, VadSpan.start])
      (by norm_num [VadSpan.stop, VadSpan.start]) 0 80000 (fun _ => [])
      (by norm_num) (by norm_num)⟩

theorem claim_C3_witness :
    ((0 : ℚ) < 8 ∧ (2 : ℚ) ≤ 8) ∧
      (process_non_mute_segments [((1 : ℚ), (0 : ℚ))] 0 1 2 8 (by decide)
          ['a'] 1 [] =
        process_non_mute_segments [] 0 1 2 8 (by decide) ['a'] 1 []) ∧
      (process_non_mute_segments [((1 : ℚ), (0 : ℚ))] 0 1 2 8 (by decide)
          ['a'] 1 [] =
        process_non_mute_segments [] 0 1 2 8 (by decide) ['a'] 1 []) :=
  ⟨⟨by decide, by decide⟩,
    (claim_C3 0 1 2 8 (by decide) (by decide) ['a'] [] 1 [] 1 0).1
      (by norm_num [frame_to_sec]),
    (claim_C3 0 1 2 8 (by decide) (by decide) ['a'] [] 1 [] 1 0).2
      (by decide) (by decide) (by decide)⟩

/-- C7.  Across one full pyannote run the shared counter ends at `1` plus
the number of emitted segments (it is incremented exactly once per
emission), every emitted entry is a Segment Key built by
`mkSegmentKey` from some counter value and the truncated millisecond
boundaries of its own segment, and all emitted keys are pairwise
distinct. -/
theorem claim_C7 (spans : List VadSpan) (nonMute : VadSpan → List (ℚ × ℚ))
    (sampling_rate lower_limit upper_limit : ℚ) (hu : 0 < upper_limit)
    (full_audio_id : List Char) :
    (get_split_audio_loop spans nonMute sampling_rate lower_limit
        upper_limit hu full_audio_id [] 1).2 =
      1 + (get_split_audio spans nonMute sampling_rate full_audio_id
        lower_limit upper_limit hu).length ∧
    (∀ p ∈ get_split_audio spans nonMute sampling_rate full_audio_id
        lower_limit upper_limit hu,
      ∃ (c : ℕ) (seg : Seg), 1 ≤ c ∧
        p = (mkSegmentKey full_audio_id c (pyInt seg.startMs)
          (pyInt seg.endMs), seg)) ∧
    (get_split_audio spans nonMute sampling_rate full_audio_id lower_limit
      upper_limit hu).Pairwise (fun p q => p.1 ≠ q.1) := by
  have hfresh : FreshDict full_audio_id [] 1 :=
    fun p hp => absurd hp (List.not_mem_nil p)
  have hspec := gsa_loop_spec nonMute sampling_rate lower_limit upper_limit
    hu full_audio_id spans [] 1 Nat.one_pos hfresh
  have hout : get_split_audio spans nonMute sampling_rate full_audio_id
      lower_limit upper_limit hu =
      gsaEntries spans nonMute sampling_rate lower_limit upper_limit hu
        full_audio_id 1 := by
    unfold get_split_audio
    rw [hspec.1]
    simp
  refine ⟨?_, ?_, ?_⟩
  · rw [hspec.1, hout]
  · intro p hp
    rw [hout] at hp
    rcases indexedFrom_mem (gsaEntries_indexed nonMute sampling_rate
      lower_limit upper_limit hu full_audio_id spans 1) p hp with
      ⟨c, seg, hcge, hseg⟩
    exact ⟨c, seg, hcge, hseg⟩
  · rw [hout]
    exact indexedFrom_pairwise_ne Nat.one_pos
      (gsaEntries_indexed nonMute sampling_rate lower_limit upper_limit hu
        full_audio_id spans 1)

theorem claim_C7_witness :
    ((0 : ℚ) < 8) ∧
      ((get_split_audio_loop [] (fun _ => []) 1 2 8 (by decide) ['a']
          [] 1).2 =
        1 + (get_split_audio [] (fun _ => []) 1 ['a'] 2 8
          (by decide)).length ∧
      (∀ p ∈ get_split_audio [] (fun _ => []) 1 ['a'] 2 8 (by decide),
        ∃ (c : ℕ) (seg : Seg), 1 ≤ c ∧
          p = (mkSegmentKey ['a'] c (pyInt seg.startMs)
            (pyInt seg.endMs), seg)) ∧
      (get_split_audio [] (fun _ => []) 1 ['a'] 2 8
        (by decide)).Pairwise (fun p q => p.1 ≠ q.1)) :=
  ⟨by decide, claim_C7 [] (fun _ => []) 1 2 8 (by decide) ['a']⟩

/-- C1 (amended).  Every segment of the Output Collection of either
backend has duration at most `upper_limit`, and any segment below
`lower_limit` is a chop of duration above `upper_limit / 2` — chops are
equal-width, so when `lower_limit > upper_limit / 2` every chop of an
affected sub-span (not only the final one) may fall below
`lower_limit`. -/
theorem claim_C1 (spans : List VadSpan) (nonMute : VadSpan → List (ℚ × ℚ))
    (sampling_rate lower_limit upper_limit : ℚ) (hu : 0 < upper_limit)
    (full_audio_id : List Char) (speech_timestamps : List (ℕ × ℕ))
    (nonMuteS : ℕ × ℕ → List (ℚ × ℚ)) :
    (∀ p ∈ get_split_audio spans nonMute sampling_rate full_audio_id
        lower_limit upper_limit hu,
      segDuration p.2 ≤ upper_limit ∧
        (lower_limit ≤ segDuration p.2 ∨
          upper_limit / 2 < segDuration p.2)) ∧
    (∀ p ∈ get_split_audio_using_silero speech_timestamps nonMuteS
        full_audio_id lower_limit upper_limit hu,
      segDuration p.2 ≤ upper_limit ∧
        (lower_limit ≤ segDuration p.2 ∨
          upper_limit / 2 < segDuration p.2)) := by
  have hfresh : FreshDict full_audio_id [] 1 :=
    fun p hp => absurd hp (List.not_mem_nil p)
  constructor
  · intro p hp
    unfold get_split_audio at hp
    rw [(gsa_loop_spec nonMute sampling_rate lower_limit upper_limit hu
      full_audio_id spans [] 1 Nat.one_pos hfresh).1] at hp
    simp only [List.nil_append] at hp
    exact gsaEntries_segOk nonMute sampling_rate lower_limit upper_limit hu
      full_audio_id spans 1 p hp
  · intro p hp
    unfold get_split_audio_using_silero at hp
    rw [(silero_loop_spec nonMuteS lower_limit upper_limit hu
      full_audio_id speech_timestamps [] 1 Nat.one_pos hfresh).1] at hp
    simp only [List.nil_append] at hp
    exact sileroEntries_segOk nonMuteS lower_limit upper_limit hu
      full_audio_id speech_timestamps 1 p hp

theorem claim_C1_witness :
    ((0 : ℚ) < 8) ∧
      ((∀ p ∈ get_split_audio [VadSpan.mk 0 5] (fun _ => []) 1 ['a'] 2 8
          (by decide),
        segDuration p.2 ≤ 8 ∧
          ((2 : ℚ) ≤ segDuration p.2 ∨ (8 : ℚ) / 2 < segDuration p.2)) ∧
      (∀ p ∈ get_split_audio_using_silero [(0, 80000)] (fun _ => []) ['a']
          2 8 (by decide),
        segDuration p.2 ≤ 8 ∧
          ((2 : ℚ) ≤ segDuration p.2 ∨ (8 : ℚ) / 2 < segDuration p.2))) :=
  ⟨by decide, claim_C1 [VadSpan.mk 0 5] (fun _ => []) 1 2 8 (by decide)
    ['a'] [(0, 80000)] (fun _ => [])⟩

/-- C1 counterexample.  With `lower_limit = 5`, `upper_limit = 8`, one
VAD span `[0, 9]` whose energy analysis returns the single full-width run,
the run emits two chops of 4.5 s each; the FIRST chop — not the final
one — already violates the `[5, 8]` band, so the claimed exception "only
possibly the final emitted chop" is false. -/
theorem claim_C1_counterexample :
    ¬ (∀ p ∈ (get_split_audio [VadSpan.mk 0 9] (fun _ => [((0 : ℚ), (9 : ℚ))])
        1 ['a'] 5 8 (by decide)).dropLast,
      (5 : ℚ) ≤ segDuration p.2 ∧ segDuration p.2 ≤ 8) := by
  intro hclaim
  have h8 : (0 : ℚ) < 8 := by decide
  have hfresh : FreshDict ['a'] [] 1 :=
    fun p hp => absurd hp (List.not_mem_nil p)
  have hcl : chop_loop 8 h8 ((9 : ℚ) / 2) = 9 / 2 := by
    rw [chop_loop, dif_neg (by norm_num : ¬ (8 : ℚ) < 9 / 2)]
  have hout : get_split_audio [VadSpan.mk 0 9] (fun _ => [((0 : ℚ), (9 : ℚ))])
      1 ['a'] 5 8 h8 =
      gsaEntries [VadSpan.mk 0 9] (fun _ => [((0 : ℚ), (9 : ℚ))]) 1 5 8 h8
        ['a'] 1 := by
    unfold get_split_audio
    rw [(gsa_loop_spec (fun _ => [((0 : ℚ), (9 : ℚ))]) 1 5 8 h8 ['a']
      [VadSpan.mk 0 9] [] 1 Nat.one_pos hfresh).1]
    simp
  have hgsa : gsaEntries [VadSpan.mk 0 9] (fun _ => [((0 : ℚ), (9 : ℚ))])
      1 5 8 h8 ['a'] 1 =
      pnmsEntries [((0 : ℚ), (9 : ℚ))] (VadSpan.mk 0 9).start 1 5 8 h8 ['a'] 1 := by
    rw [gsaEntries]
    split_ifs with hA hB
    · exfalso
      norm_num [VadSpan.stop, VadSpan.start] at hA
    · rw [gsaEntries]
      simp
    · exfalso
      apply hB
      norm_num [VadSpan.stop, VadSpan.start]
  have hstart : (VadSpan.mk (0 : ℚ) (9 : ℚ)).start = 0 := rfl
  have hN : (pyInt ((9 : ℚ) / (9 / 2))).toNat = 2 := by
    have h2 : (9 : ℚ) / (9 / 2) = 2 := by norm_num
    rw [h2, pyInt_of_nonneg (by norm_num)]
    norm_num
    rfl
  have hpnms : pnmsEntries [((0 : ℚ), (9 : ℚ))] (VadSpan.mk 0 9).start 1 5 8
      h8 ['a'] 1 = chopEntries 9 8 h8 0 0 1 ['a'] 1 := by
    rw [hstart, pnmsEntries]
    split_ifs with hA hB
    · exfalso
      norm_num [frame_to_sec] at hA
    · rw [pnmsEntries, List.append_nil]
      norm_num [frame_to_sec]
    · exfalso
      apply hB
      norm_num [frame_to_sec]
  have hchop : chopEntries 9 8 h8 0 0 1 ['a'] 1 =
      chopMap ((9 : ℚ) / 2) 0 ['a'] 1 2 := by
    unfold chopEntries
    rw [hcl, hN]
    norm_num [frame_to_sec]
  have hmap : chopMap ((9 : ℚ) / 2) 0 ['a'] 1 2 =
      [chopEntry ((9 : ℚ) / 2) 0 ['a'] 1 0,
        chopEntry ((9 : ℚ) / 2) 0 ['a'] 1 1] := by
    simp [chopMap, List.range_succ]
  have hlast : (get_split_audio [VadSpan.mk 0 9]
      (fun _ => [((0 : ℚ), (9 : ℚ))]) 1 ['a'] 5 8 h8).dropLast =
      [chopEntry ((9 : ℚ) / 2) 0 ['a'] 1 0] := by
    rw [hout, hgsa, hpnms, hchop, hmap]
    rfl
  have hp0 := hclaim (chopEntry ((9 : ℚ) / 2) 0 ['a'] 1 0)
    (by rw [hlast]; exact List.mem_singleton_self _)
  rw [chopEntry_duration] at hp0
  exact absurd hp0.1 (by norm_num)
